import Mathlib

/-!
Verification development for the templatize token-transformation and
tree-rewrite engine (crates/templatize-core).  Strings are modelled as
`List Char`; Rust's `str::contains` and `str::replace` (leftmost,
non-overlapping, replace-all) are embedded directly, as are the three
substitution strategies and the recursive directory walker.
-/

/-- Strings of the engine, modelled as lists of characters. -/
abbrev Str := List Char

/-- Coerce a Lean string literal into the model's string type. -/
def str (s : String) : Str := s.data

/-- `listPre t s`: `t` is an initial segment of `s` (a match of the
pattern `t` at the current position). -/
def listPre : Str → Str → Bool
  | [], _ => true
  | _ :: _, [] => false
  | a :: as, b :: bs => a = b && listPre as bs

/-- Occurrence test for a nonempty pattern, scanning left to right. -/
def occursNE (t : Str) : Str → Bool
  | [] => false
  | c :: cs => listPre t (c :: cs) || occursNE t cs

/-- Rust `str::contains`: the empty pattern occurs in every string. -/
def occurs (t s : Str) : Bool :=
  match t with
  | [] => true
  | _ :: _ => occursNE t s

/-- Core of Rust `str::replace` for the nonempty pattern `a :: t'`:
replace each leftmost, non-overlapping occurrence by `r`.  The fuel
argument only drives structural recursion; `fuel = s.length` always
suffices because a match consumes at least one character. -/
def replaceFuel (a : Char) (t' r : Str) : Nat → Str → Str
  | _, [] => []
  | 0, s => s
  | fuel + 1, b :: bs =>
    if listPre (a :: t') (b :: bs) then
      r ++ replaceFuel a t' r fuel (bs.drop t'.length)
    else
      b :: replaceFuel a t' r fuel bs

/-- Replace each leftmost, non-overlapping occurrence of the nonempty
pattern `a :: t'` by `r`. -/
def replaceCore (a : Char) (t' r : Str) (s : Str) : Str :=
  replaceFuel a t' r s.length s

/-- Rust `str::replace` with the empty pattern: `r` is inserted at every
character boundary, including both ends. -/
def replaceEmptyPat (r : Str) : Str → Str
  | [] => r
  | c :: cs => r ++ c :: replaceEmptyPat r cs

/-- Rust `str::replace`: replace every occurrence of `t` in `s` by `r`. -/
def replaceAll (t r s : Str) : Str :=
  match t with
  | [] => replaceEmptyPat r s
  | a :: t' => replaceCore a t' r s

/-- Number of (leftmost, non-overlapping) matches replaced by
`replaceFuel`; mirrors its recursion exactly. -/
def countFuel (a : Char) (t' : Str) : Nat → Str → Nat
  | _, [] => 0
  | 0, _ => 0
  | fuel + 1, b :: bs =>
    if listPre (a :: t') (b :: bs) then
      1 + countFuel a t' fuel (bs.drop t'.length)
    else
      countFuel a t' fuel bs

/-- `ExactTemplater`: owns a literal token and its replacement
(templater.rs, `ExactTemplater`). -/
structure ExactTemplater where
  token : Str
  replacement : Str
deriving DecidableEq

/-- `ExactTemplater::new` (templater.rs): always succeeds. -/
def ExactTemplater.new (token replacement : Str) : ExactTemplater :=
  ⟨token, replacement⟩

/-- `ExactTemplater::process_content` (templater.rs): if the token occurs,
replace every occurrence, else `None`. -/
def ExactTemplater.process_content (tp : ExactTemplater) (content : Str) : Option Str :=
  if occurs tp.token content then
    some (replaceAll tp.token tp.replacement content)
  else
    none

/-- `ExactTemplater::process_path_component` (templater.rs): the same
literal substitution restricted to the final path segment (the entry
name, i.e. `path.file_name()`). -/
def ExactTemplater.process_path_component (tp : ExactTemplater) (name : Str) : Option Str :=
  if occurs tp.token name then
    some (replaceAll tp.token tp.replacement name)
  else
    none

/-- Normalize path separators: Rust `path_str.replace('\\', "/")`. -/
def normSlash (s : Str) : Str :=
  s.map (fun c => if c = '\\' then '/' else c)

/-- A path as the `/`-joined string of its segments. -/
def pathString (segs : List Str) : Str :=
  List.intercalate (str "/") segs

/-- `ExactTemplater::process_full_path` (templater.rs): match the token
against the whole separator-normalized path string. -/
def ExactTemplater.process_full_path (tp : ExactTemplater) (segs : List Str) : Option Str :=
  let np := normSlash (pathString segs)
  let nt := normSlash tp.token
  if occurs nt np then
    some (replaceAll nt tp.replacement np)
  else
    none

/-- One match of the fixed detection pattern
`\x7b\x7b\s*([^\x7d]+)\s*\x7d\x7d` (templater.rs, `JinjaEscaper::new`):
the text before the match, the raw captured run (untrimmed), and the
text after the match. -/
structure JMatch where
  pre : Str
  inner : Str
  post : Str
deriving DecidableEq

/-- Parse the tail of a candidate match: a nonempty run of
non-`\x7d` characters followed by `\x7d\x7d`; returns the captured run
and the remainder after the closing delimiter.  (This is what the regex
`\s*([^\x7d]+)\s*\x7d\x7d` accepts after an opening `\x7b\x7b`; the
greedy capture always extends to the character before the first `\x7d`.) -/
def parseRun (rest : Str) : Option (Str × Str) :=
  let run := rest.takeWhile (fun c => c ≠ '\x7d')
  let rem := rest.drop run.length
  if run.length ≠ 0 && listPre (str "\x7d\x7d") rem then
    some (run, rem.drop 2)
  else
    none

/-- Leftmost match of the Jinja detection pattern: an opening
`\x7b\x7b`, a nonempty run of non-`\x7d` characters, then `\x7d\x7d`.
On a failed parse the scan resumes one character further right, exactly
as the regex engine does. -/
def jinjaSplit : Str → Option JMatch
  | [] => none
  | c :: cs =>
    match c, cs with
    | '\x7b', '\x7b' :: rest =>
      match parseRun rest with
      | some (run, post) => some ⟨[], run, post⟩
      | none => (jinjaSplit cs).map (fun m => ⟨c :: m.pre, m.inner, m.post⟩)
    | _, _ => (jinjaSplit cs).map (fun m => ⟨c :: m.pre, m.inner, m.post⟩)

/-- Rust `str::trim` restricted to the whitespace the engine meets. -/
def trimWs (s : Str) : Str :=
  ((s.dropWhile Char.isWhitespace).reverse.dropWhile Char.isWhitespace).reverse

/-- The replacement emitted for one matched expression (templater.rs,
`JinjaEscaper::escape_content`): the Rust format string renders as
`\x7b\x7b'\x7b'\x7d\x7d\x7b <inner> \x7d`. -/
def escSeq (inner : Str) : Str :=
  str "\x7b\x7b'\x7b'\x7d\x7d\x7b " ++ inner ++ str " \x7d"

/-- `Regex::replace_all` with the escape closure: rewrite each leftmost
match and continue scanning after its end.  The fuel argument only
drives structural recursion; `fuel = s.length` always suffices since a
match consumes at least four characters. -/
def escapeFuel : Nat → Str → Str
  | 0, s => s
  | fuel + 1, s =>
    match jinjaSplit s with
    | none => s
    | some m => m.pre ++ escSeq (trimWs m.inner) ++ escapeFuel fuel m.post

/-- All matches of the detection pattern rewritten to escape sequences. -/
def escapeGo (s : Str) : Str :=
  escapeFuel s.length s

/-- `JinjaEscaper::escape_content` (templater.rs): `Some` with all
matches rewritten when the pattern matches, else `None`. -/
def JinjaEscaper.escape_content (s : Str) : Option Str :=
  if (jinjaSplit s).isSome then some (escapeGo s) else none

/-- Modelled from the spec: the notional downstream template engine of
the round-trip claim, which turns each escaped-delimiter placeholder
`\x7b\x7b'\x7b'\x7d\x7d` back into a literal `\x7b` and leaves all other
text intact.  No such engine exists in this repository. -/
def renderNotional (s : Str) : Str :=
  replaceAll (str "\x7b\x7b'\x7b'\x7d\x7d") (str "\x7b") s

/-- Word-boundary delimiters removed when splitting identifiers
(convert_case default boundaries: hyphen, underscore, space). -/
def isDelim (c : Char) : Bool := c = '-' || c = '_' || c = ' '

/-- True when the first character is lowercase (acronym-boundary
lookahead). -/
def headIsLower : Str → Bool
  | [] => false
  | e :: _ => e.isLower

/-- Non-delimiter word boundary between adjacent characters `c` and `d`
with lookahead `ds` (convert_case defaults): lowercase-to-uppercase,
acronym (upper-upper-lower), and letter/digit transitions. -/
def caseBoundary (c d : Char) (ds : Str) : Bool :=
  (c.isLower && d.isUpper)
  || (c.isUpper && d.isUpper && headIsLower ds)
  || (c.isDigit && !d.isDigit)
  || (!c.isDigit && d.isDigit)

/-- Accumulating scanner for identifier-word splitting; `cur` holds the
current word reversed. -/
def splitWordsGo (cur : Str) : Str → List Str
  | [] => if cur.isEmpty then [] else [cur.reverse]
  | c :: cs =>
    if isDelim c then
      if cur.isEmpty then splitWordsGo [] cs
      else cur.reverse :: splitWordsGo [] cs
    else
      match cs with
      | [] => [(c :: cur).reverse]
      | d :: ds =>
        if !isDelim d && caseBoundary c d ds then
          (c :: cur).reverse :: splitWordsGo [] cs
        else
          splitWordsGo (c :: cur) cs

/-- Split an identifier into its words (convert_case with the default
boundaries). -/
def splitWords (s : Str) : List Str := splitWordsGo [] s

/-- The seven casing conventions generated by `CaseShapeTemplater::new`
(templater.rs: Camel, Pascal, Kebab, Snake, Train, ScreamingSnake,
Cobol). -/
inductive CaseKind where
  | camel
  | pascal
  | kebab
  | snake
  | train
  | screamingSnake
  | cobol
deriving DecidableEq

def lowerWord (w : Str) : Str := w.map Char.toLower

def upperWord (w : Str) : Str := w.map Char.toUpper

def capitalWord : Str → Str
  | [] => []
  | c :: cs => Char.toUpper c :: cs.map Char.toLower

def joinWith (sep : Str) (ws : List Str) : Str := List.intercalate sep ws

/-- convert_case `to_case`: split into words, re-case each word per the
convention, join with the convention's separator. -/
def toCase (k : CaseKind) (s : Str) : Str :=
  match k with
  | CaseKind.camel =>
    match splitWords s with
    | [] => []
    | w :: rest => joinWith [] (lowerWord w :: rest.map capitalWord)
  | CaseKind.pascal => joinWith [] ((splitWords s).map capitalWord)
  | CaseKind.kebab => joinWith (str "-") ((splitWords s).map lowerWord)
  | CaseKind.snake => joinWith (str "_") ((splitWords s).map lowerWord)
  | CaseKind.train => joinWith (str "-") ((splitWords s).map capitalWord)
  | CaseKind.screamingSnake => joinWith (str "_") ((splitWords s).map upperWord)
  | CaseKind.cobol => joinWith (str "-") ((splitWords s).map upperWord)

/-- The case array of `CaseShapeTemplater::new`, in source order. -/
def caseList : List CaseKind :=
  [CaseKind.camel, CaseKind.pascal, CaseKind.kebab, CaseKind.snake,
   CaseKind.train, CaseKind.screamingSnake, CaseKind.cobol]

/-- `validate_compound_word`'s stripping step (templater.rs): when the
word contains both delimiters, take the first regex capture trimmed,
else the word itself. -/
def cleanWord (w : Str) : Str :=
  if occurs (str "\x7b\x7b") w && occurs (str "\x7d\x7d") w then
    match jinjaSplit w with
    | some m => trimWs m.inner
    | none => w
  else w

/-- The compound-word test of `validate_compound_word` (templater.rs):
the cleaned word contains a hyphen, an underscore, or an uppercase
letter anywhere. -/
def hasCompound (w : Str) : Bool :=
  let cw := cleanWord w
  cw.any (fun c => c = '-') || cw.any (fun c => c = '_') || cw.any Char.isUpper

/-- Per-case replacement variant (`CaseShapeTemplater::new`): when the
replacement carries placeholder syntax, convert the trimmed inner
variable and rewrap it as `\x7b\x7b <inner> \x7d\x7d`; else convert the
whole replacement. -/
def replVariant (replacement : Str) (k : CaseKind) : Str :=
  if occurs (str "\x7b\x7b") replacement && occurs (str "\x7d\x7d") replacement then
    match jinjaSplit replacement with
    | some m => str "\x7b\x7b " ++ toCase k (trimWs m.inner) ++ str " \x7d\x7d"
    | none => toCase k replacement
  else toCase k replacement

/-- `HashMap::insert`: replace the value when the key is present, else
add the binding. -/
def insertAssoc (k v : Str) : List (Str × Str) → List (Str × Str)
  | [] => [(k, v)]
  | (k', v') :: rest =>
    if k' = k then (k, v) :: rest
    else (k', v') :: insertAssoc k v rest

/-- `HashMap::get`. -/
def lookupA : List (Str × Str) → Str → Option Str
  | [], _ => none
  | (k', v) :: rest, k => if k' = k then some v else lookupA rest k

/-- Insert a list of bindings in order (later bindings overwrite). -/
def insertList (ps : List (Str × Str)) (m0 : List (Str × Str)) : List (Str × Str) :=
  ps.foldl (fun m p => insertAssoc p.1 p.2 m) m0

/-- The mapping built by `CaseShapeTemplater::new` (templater.rs): the
seven casing-variant pairs inserted in source order, then the literal
as-typed pair. -/
def buildReplacements (token replacement : Str) : List (Str × Str) :=
  insertAssoc token replacement
    (insertList (caseList.map (fun k => (toCase k token, replVariant replacement k))) [])

/-- `CaseShapeTemplater`: owns the derived mapping table. -/
structure CaseShapeTemplater where
  replacements : List (Str × Str)
deriving DecidableEq

/-- `CaseShapeTemplater::new` (templater.rs): validate both inputs as
compound words (token first), then build the variant mapping. -/
def CaseShapeTemplater.new (token replacement : Str) : Except Str CaseShapeTemplater :=
  if !hasCompound token then Except.error (str "token")
  else if !hasCompound replacement then Except.error (str "replacement")
  else Except.ok ⟨buildReplacements token replacement⟩

/-- Sort order of `CaseShapeTemplater::process_content`: longest key
first (`sort_by(|a, b| b.0.len().cmp(&a.0.len()))`). -/
def keyLenGe (a b : Str × Str) : Prop := b.1.length ≤ a.1.length

instance : DecidableRel keyLenGe := fun a b => Nat.decLe b.1.length a.1.length

instance : IsTotal (Str × Str) keyLenGe :=
  ⟨fun a b => Nat.le_total b.1.length a.1.length⟩

instance : IsTrans (Str × Str) keyLenGe :=
  ⟨fun _ _ _ h1 h2 => Nat.le_trans h2 h1⟩

/-- The mapping entries sorted longest key first (stable). -/
def sortedReplacements (m : List (Str × Str)) : List (Str × Str) :=
  List.insertionSort keyLenGe m

/-- One substitution pass of `CaseShapeTemplater::process_content`:
replace all occurrences of the key if it occurs, recording a match. -/
def shapeStep (acc : Str × Bool) (kv : Str × Str) : Str × Bool :=
  if occurs kv.1 acc.1 then (replaceAll kv.1 kv.2 acc.1, true) else acc

/-- `CaseShapeTemplater::process_content` (templater.rs): try each
mapping entry longest key first, replacing all occurrences; return the
modified text when any entry matched, else `None`. -/
def CaseShapeTemplater.process_content (tp : CaseShapeTemplater) (content : Str) :
    Option Str :=
  let folded := (sortedReplacements tp.replacements).foldl shapeStep (content, false)
  if folded.2 then some folded.1 else none

/-- `CaseShapeTemplater::process_path_component` (templater.rs): the
content algorithm on the entry name, kept only when it changes it. -/
def CaseShapeTemplater.process_path_component (tp : CaseShapeTemplater) (name : Str) :
    Option Str :=
  match tp.process_content name with
  | some nc => if nc ≠ name then some nc else none
  | none => none

/-- Last binding of a key in a plain pair list (the survivor under
key-unique collapse where later insertions win). -/
def lookupLast : List (Str × Str) → Str → Option Str
  | [], _ => none
  | (k', v) :: rest, k =>
    match lookupLast rest k with
    | some v' => some v'
    | none => if k' = k then some v else none

/-- The mapping pairs exactly as the claim enumerates them: the seven
casing-variant pairs in convention order, then the literal as-typed
pair; duplicate keys collapse with later pairs winning. -/
def specShapePairs (token replacement : Str) : List (Str × Str) :=
  caseList.map (fun k => (toCase k token, replVariant replacement k)) ++ [(token, replacement)]

/-- Constructor test for `Except` results. -/
def isOkE {ε α : Type} : Except ε α → Bool
  | Except.ok _ => true
  | Except.error _ => false

/-- The claim's compound-word predicate, from the spec's words: after
stripping placeholder syntax, the word contains a hyphen, an
underscore, or an INTERNAL uppercase letter (one past the first
character). -/
def specCompound (w : Str) : Bool :=
  let cw := cleanWord w
  cw.any (fun c => c = '-') || cw.any (fun c => c = '_')
    || (cw.drop 1).any Char.isUpper

/-- `TemplateOptions` (templater.rs). -/
structure TemplateOptions where
  process_paths : Bool
  process_contents : Bool
  dry_run : Bool
deriving DecidableEq

/-- `TemplatizeResult` (lib.rs): the three counters. -/
structure TRes where
  files_processed : Nat
  paths_renamed : Nat
  content_changes : Nat
deriving DecidableEq

def TRes.zero : TRes := ⟨0, 0, 0⟩

def TRes.add (a b : TRes) : TRes :=
  ⟨a.files_processed + b.files_processed,
   a.paths_renamed + b.paths_renamed,
   a.content_changes + b.content_changes⟩

/-- A filesystem subtree: files carry decoded text content (`none` for
binary, i.e. text-undecodable, files); directories carry their entries
in enumeration order. -/
inductive FsEntry where
  | file (name : Str) (content : Option Str)
  | dir (name : Str) (children : List FsEntry)

mutual

/-- Total node count of a subtree (default recursion fuel of the
walkers). -/
def sizeE : FsEntry → Nat
  | FsEntry.file _ _ => 1
  | FsEntry.dir _ cs => 1 + sizeL cs

def sizeL : List FsEntry → Nat
  | [] => 0
  | e :: rest => sizeE e + sizeL rest

end

/-- Filesystem access events of one engine invocation, in program
order.  Paths are parent segment lists relative to the target's parent;
read and write events name the file accessed, rename events carry the
old and new final segment.  Mutation events (`writeFile`, `renameFile`,
`renameDir`) are only emitted when the mutation happens (never under
dry-run); `readFile` records the `read_to_string` attempt. -/
inductive Ev where
  | enumDir (dp : List Str)
  | visitFile (dp : List Str) (n : Str)
  | readFile (dp : List Str) (n : Str)
  | writeFile (dp : List Str) (n : Str)
  | renameFile (dp : List Str) (a : Str) (b : Str)
  | renameDir (dp : List Str) (a : Str) (b : Str)
deriving DecidableEq

/-- The two strategy capabilities the walker uses (content and final
path segment). -/
structure Strat where
  procContent : Str → Option Str
  procComponent : Str → Option Str

def ExactTemplater.strat (tp : ExactTemplater) : Strat :=
  ⟨tp.process_content, tp.process_path_component⟩

def CaseShapeTemplater.strat (tp : CaseShapeTemplater) : Strat :=
  ⟨tp.process_content, tp.process_path_component⟩

/-- Outcome of processing one file (`process_file` in lib.rs). -/
structure FileOut where
  name : Str
  content : Option Str
  res : TRes
  trace : List Ev

/-- The contents half of `process_file` (lib.rs): read the file
(undecodable files are skipped), transform, and write unless dry-run;
returns the stored content, the content-change increment, and the
events. -/
def fileContentStep (st : Strat) (o : TemplateOptions) (dp : List Str) (n : Str)
    (c : Option Str) : Option Str × Nat × List Ev :=
  if o.process_contents then
    match c with
    | some body =>
      match st.procContent body with
      | some nb =>
        (some (if o.dry_run then body else nb), 1,
          Ev.readFile dp n :: (if o.dry_run then [] else [Ev.writeFile dp n]))
      | none => (some body, 0, [Ev.readFile dp n])
    | none => (none, 0, [Ev.readFile dp n])
  else (c, 0, [])

/-- The path half of `process_file` (lib.rs): rename within the current
directory unless dry-run; returns the stored name, the rename
increment, and the events.  The entry is renamed in place here; the
target-collision behaviour of `fs::rename` (atomic replacement of an
existing file at the new name) is modelled separately by the
store-based `processFileFs`. -/
def fileRenameStep (st : Strat) (o : TemplateOptions) (dp : List Str) (n : Str) :
    Str × Nat × List Ev :=
  if o.process_paths then
    match st.procComponent n with
    | some nn =>
      ((if o.dry_run then n else nn), 1,
        if o.dry_run then [] else [Ev.renameFile dp n nn])
    | none => (n, 0, [])
  else (n, 0, [])

/-- `process_file` (lib.rs): count the visit; transform contents first
(skipping undecodable files), then rename within the current directory;
dry-run counts identically but suppresses the mutations. -/
def processFileM (st : Strat) (o : TemplateOptions) (dp : List Str) (n : Str)
    (c : Option Str) : FileOut :=
  ⟨(fileRenameStep st o dp n).1, (fileContentStep st o dp n c).1,
   ⟨1, (fileRenameStep st o dp n).2.1, (fileContentStep st o dp n c).2.1⟩,
   Ev.visitFile dp n ::
     ((fileContentStep st o dp n c).2.2 ++ (fileRenameStep st o dp n).2.2)⟩

/-- One directory's file store: (name, content) bindings; a `none`
content stands for a text-undecodable (binary) file.  First binding of
a name wins on lookup; the directory never holds two. -/
def storeGet (n : Str) : List (Str × Option Str) → Option (Option Str)
  | [] => none
  | (m, c) :: rest => if m = n then some c else storeGet n rest

/-- Write to a name: replace its binding in place, or create it. -/
def storeSet (n : Str) (c : Option Str) :
    List (Str × Option Str) → List (Str × Option Str)
  | [] => [(n, c)]
  | (m, c') :: rest =>
    if m = n then (n, c) :: rest else (m, c') :: storeSet n c rest

/-- Delete a name's binding. -/
def storeRemove (n : Str) :
    List (Str × Option Str) → List (Str × Option Str)
  | [] => []
  | (m, c) :: rest => if m = n then rest else (m, c) :: storeRemove n rest

/-- `process_file` (lib.rs) against one directory's file store, with
the real semantics of the filesystem calls: `fs::read_to_string` reads
the name's CURRENT content (an absent or undecodable file is skipped
for content), `fs::write` replaces the content under the same name, and
`fs::rename` moves the current content to the new name, atomically
REPLACING any existing file there; renaming an absent source fails and
aborts the run (the `?` on `fs::rename`).  Dry-run counts identically
and leaves the store untouched. -/
def processFileFs (st : Strat) (o : TemplateOptions) (n : Str)
    (fs : List (Str × Option Str)) :
    Except Unit (List (Str × Option Str) × TRes) :=
  let stepC : List (Str × Option Str) × Nat :=
    if o.process_contents then
      match storeGet n fs with
      | some (some body) =>
        match st.procContent body with
        | some nb => (if o.dry_run then fs else storeSet n (some nb) fs, 1)
        | none => (fs, 0)
      | some none => (fs, 0)
      | none => (fs, 0)
    else (fs, 0)
  if o.process_paths then
    match st.procComponent n with
    | some nn =>
      if o.dry_run then Except.ok (stepC.1, ⟨1, 1, stepC.2⟩)
      else
        match storeGet n stepC.1 with
        | some c =>
          Except.ok (storeSet nn c (storeRemove n stepC.1), ⟨1, 1, stepC.2⟩)
        | none => Except.error ()
    | none => Except.ok (stepC.1, ⟨1, 0, stepC.2⟩)
  else Except.ok (stepC.1, ⟨1, 0, stepC.2⟩)

/-- The files loop of `process_directory_contents_recursive` (lib.rs)
against the store: the names collected at enumeration time are
processed in order over the evolving store. -/
def filesLoopFs (st : Strat) (o : TemplateOptions) :
    List Str → List (Str × Option Str) →
    Except Unit (List (Str × Option Str) × TRes)
  | [], fs => Except.ok (fs, TRes.zero)
  | n :: ns, fs =>
    match processFileFs st o n fs with
    | Except.error e => Except.error e
    | Except.ok (fs1, r1) =>
      match filesLoopFs st o ns fs1 with
      | Except.error e => Except.error e
      | Except.ok (fs2, r2) => Except.ok (fs2, TRes.add r1 r2)

/-- Names of the directory entries, in enumeration order. -/
def dirNames : List FsEntry → List Str
  | [] => []
  | FsEntry.dir n _ :: rest => n :: dirNames rest
  | FsEntry.file _ _ :: rest => dirNames rest

/-- Outcome of one traversal phase over a directory's entry list. -/
structure WalkOut where
  entries : List FsEntry
  res : TRes
  trace : List Ev

/-- The files loop of the walker: process each file of the current
directory in enumeration order; directories pass through untouched. -/
def filesPhase (st : Strat) (o : TemplateOptions) (dp : List Str) :
    List FsEntry → WalkOut
  | [] => ⟨[], TRes.zero, []⟩
  | FsEntry.dir n cs :: rest =>
    let w := filesPhase st o dp rest
    ⟨FsEntry.dir n cs :: w.entries, w.res, w.trace⟩
  | FsEntry.file n c :: rest =>
    let f := processFileM st o dp n c
    let w := filesPhase st o dp rest
    ⟨FsEntry.file f.name f.content :: w.entries, TRes.add f.res w.res,
     f.trace ++ w.trace⟩

/-- Apply the rename decision to one child-directory entry, in place.
This is the collision-free idealization: the real `fs::rename` can
replace or fail on an existing entry at the target name (the file case
is modelled faithfully by the store-based `processFileFs`). -/
def renameDirEntry (st : Strat) (o : TemplateOptions) : FsEntry → FsEntry
  | FsEntry.dir n cs =>
    match st.procComponent n with
    | some nn => FsEntry.dir (if o.dry_run then n else nn) cs
    | none => FsEntry.dir n cs
  | e => e

/-- Rename events for the child-directory names, in the given order. -/
def renameEvents (st : Strat) (o : TemplateOptions) (dp : List Str)
    (ns : List Str) : List Ev :=
  ns.filterMap (fun n =>
    match st.procComponent n with
    | some nn => if o.dry_run then none else some (Ev.renameDir dp n nn)
    | none => none)

/-- Number of child-directory names with a rename decision. -/
def renameCount (st : Strat) (ns : List Str) : Nat :=
  (ns.filter (fun n => (st.procComponent n).isSome)).length

/-- The subdirectory-rename loop of the walker: component replacement
only, applied in reverse enumeration order; the counter increments
whether or not dry-run suppresses the actual rename. -/
def renamePhase (st : Strat) (o : TemplateOptions) (dp : List Str)
    (es : List FsEntry) : WalkOut :=
  if o.process_paths then
    ⟨es.map (renameDirEntry st o), ⟨0, renameCount st (dirNames es), 0⟩,
     renameEvents st o dp (dirNames es).reverse⟩
  else ⟨es, TRes.zero, []⟩

/-- The recursion loop of `process_directory_contents_recursive`
(lib.rs): for each child directory in enumeration order, run the full
per-directory composite (enumerate, recurse into its children, process
its files, rename its subdirectories bottom-up); files at this level
pass through untouched.  The fuel argument only drives structural
recursion; `fuel = sizeL es` always suffices. -/
def walkPlainF (st : Strat) (o : TemplateOptions) : Nat → List Str →
    List FsEntry → WalkOut
  | 0, _, es => ⟨es, TRes.zero, []⟩
  | _ + 1, _, [] => ⟨[], TRes.zero, []⟩
  | fuel + 1, dp, FsEntry.file n c :: rest =>
    let w := walkPlainF st o fuel dp rest
    ⟨FsEntry.file n c :: w.entries, w.res, w.trace⟩
  | fuel + 1, dp, FsEntry.dir n cs :: rest =>
    let w1 := walkPlainF st o fuel (dp ++ [n]) cs
    let w2 := filesPhase st o (dp ++ [n]) w1.entries
    let w3 := renamePhase st o (dp ++ [n]) w2.entries
    let wr := walkPlainF st o fuel dp rest
    ⟨FsEntry.dir n w3.entries :: wr.entries,
     TRes.add (TRes.add (TRes.add w1.res w2.res) w3.res) wr.res,
     (Ev.enumDir (dp ++ [n]) :: (w1.trace ++ w2.trace ++ w3.trace)) ++ wr.trace⟩

/-- The recursion loop at its natural fuel. -/
def walkPlain (st : Strat) (o : TemplateOptions) (dp : List Str)
    (es : List FsEntry) : WalkOut :=
  walkPlainF st o (sizeL es) dp es

/-- `process_directory_contents_recursive` (lib.rs) on the directory at
path `dp` with entries `es`: enumerate once, recurse into child
directories (contents only), process the files of this directory, then
rename child directories in reverse enumeration order. -/
def pdcrPlain (st : Strat) (o : TemplateOptions) (dp : List Str)
    (es : List FsEntry) : WalkOut :=
  let w1 := walkPlain st o dp es
  let w2 := filesPhase st o dp w1.entries
  let w3 := renamePhase st o dp w2.entries
  ⟨w3.entries, TRes.add (TRes.add w1.res w2.res) w3.res,
   Ev.enumDir dp :: (w1.trace ++ w2.trace ++ w3.trace)⟩

/-- Outcome of one whole engine invocation. -/
structure RunOut where
  root : FsEntry
  res : TRes
  trace : List Ev

/-- `process_directory` (lib.rs): a file target goes through
`process_file`; a directory target has its contents processed first and
is itself renamed (component replacement only) last. -/
def process_directory_model (tp : ExactTemplater) (o : TemplateOptions)
    (root : FsEntry) : RunOut :=
  match root with
  | FsEntry.file n c =>
    let f := processFileM tp.strat o [] n c
    ⟨FsEntry.file f.name f.content, f.res, f.trace⟩
  | FsEntry.dir n cs =>
    let w := pdcrPlain tp.strat o [n] cs
    if o.process_paths then
      match tp.process_path_component n with
      | some nn =>
        ⟨FsEntry.dir (if o.dry_run then n else nn) w.entries,
         TRes.add w.res ⟨0, 1, 0⟩,
         w.trace ++ (if o.dry_run then [] else [Ev.renameDir [] n nn])⟩
      | none => ⟨FsEntry.dir n w.entries, w.res, w.trace⟩
    else ⟨FsEntry.dir n w.entries, w.res, w.trace⟩

/-- The recursion loop of `process_directory_contents_recursive_shapes`
(lib.rs): as the plain walker, but within each visited directory the
subdirectory renames happen before its files are processed.  The fuel
argument only drives structural recursion; `fuel = sizeL es` always
suffices. -/
def walkShapesF (st : Strat) (o : TemplateOptions) : Nat → List Str →
    List FsEntry → WalkOut
  | 0, _, es => ⟨es, TRes.zero, []⟩
  | _ + 1, _, [] => ⟨[], TRes.zero, []⟩
  | fuel + 1, dp, FsEntry.file n c :: rest =>
    let w := walkShapesF st o fuel dp rest
    ⟨FsEntry.file n c :: w.entries, w.res, w.trace⟩
  | fuel + 1, dp, FsEntry.dir n cs :: rest =>
    let w1 := walkShapesF st o fuel (dp ++ [n]) cs
    let w2 := renamePhase st o (dp ++ [n]) w1.entries
    let w3 := filesPhase st o (dp ++ [n]) w2.entries
    let wr := walkShapesF st o fuel dp rest
    ⟨FsEntry.dir n w3.entries :: wr.entries,
     TRes.add (TRes.add (TRes.add w1.res w2.res) w3.res) wr.res,
     (Ev.enumDir (dp ++ [n]) :: (w1.trace ++ w2.trace ++ w3.trace)) ++ wr.trace⟩

/-- The shapes recursion loop at its natural fuel. -/
def walkShapes (st : Strat) (o : TemplateOptions) (dp : List Str)
    (es : List FsEntry) : WalkOut :=
  walkShapesF st o (sizeL es) dp es

/-- `process_directory_contents_recursive_shapes` (lib.rs): enumerate,
recurse into child directories, rename child directories in reverse
enumeration order, then process the files of this directory. -/
def pdcrShapes (st : Strat) (o : TemplateOptions) (dp : List Str)
    (es : List FsEntry) : WalkOut :=
  let w1 := walkShapes st o dp es
  let w2 := renamePhase st o dp w1.entries
  let w3 := filesPhase st o dp w2.entries
  ⟨w3.entries, TRes.add (TRes.add w1.res w2.res) w3.res,
   Ev.enumDir dp :: (w1.trace ++ w2.trace ++ w3.trace)⟩

/-- `process_directory_shapes` (lib.rs): construct the Case-Shape
strategy first -- a validation error is returned before any filesystem
access -- then walk exactly like the plain engine but with the shapes
per-directory order. -/
def process_directory_shapes_model (token repl : Str) (o : TemplateOptions)
    (root : FsEntry) : Except Str RunOut :=
  match CaseShapeTemplater.new token repl with
  | Except.error e => Except.error e
  | Except.ok tp =>
    match root with
    | FsEntry.file n c =>
      let f := processFileM tp.strat o [] n c
      Except.ok ⟨FsEntry.file f.name f.content, f.res, f.trace⟩
    | FsEntry.dir n cs =>
      let w := pdcrShapes tp.strat o [n] cs
      if o.process_paths then
        match tp.process_path_component n with
        | some nn =>
          Except.ok ⟨FsEntry.dir (if o.dry_run then n else nn) w.entries,
            TRes.add w.res ⟨0, 1, 0⟩,
            w.trace ++ (if o.dry_run then [] else [Ev.renameDir [] n nn])⟩
        | none => Except.ok ⟨FsEntry.dir n w.entries, w.res, w.trace⟩
      else Except.ok ⟨FsEntry.dir n w.entries, w.res, w.trace⟩

/-- All entry names of one directory level, in enumeration order. -/
def namesOf : List FsEntry → List Str
  | [] => []
  | FsEntry.file n _ :: rest => n :: namesOf rest
  | FsEntry.dir n _ :: rest => n :: namesOf rest

def memName (n : Str) : List Str → Bool
  | [] => false
  | m :: ms => n = m || memName n ms

def nodupNames : List Str → Bool
  | [] => true
  | n :: ms => !memName n ms && nodupNames ms

/-- Well-formed directory listing: sibling names pairwise distinct, at
every level (true of any real filesystem tree). -/
def wfList : List FsEntry → Bool
  | [] => true
  | FsEntry.file _ _ :: rest => wfList rest
  | FsEntry.dir _ cs :: rest => nodupNames (namesOf cs) && wfList cs && wfList rest

def wfEntry : FsEntry → Bool
  | FsEntry.file _ _ => true
  | FsEntry.dir _ cs => nodupNames (namesOf cs) && wfList cs

/-- The directory containing the object an event touches. -/
def evParent : Ev → List Str
  | Ev.enumDir dp => dp
  | Ev.visitFile dp _ => dp
  | Ev.readFile dp _ => dp
  | Ev.writeFile dp _ => dp
  | Ev.renameFile dp _ _ => dp
  | Ev.renameDir dp _ _ => dp

/-- The path a content access (read or write) touches. -/
def evContentPath : Ev → Option (List Str)
  | Ev.readFile dp n => some (dp ++ [n])
  | Ev.writeFile dp n => some (dp ++ [n])
  | _ => none

/-- The old path a rename event moves away from. -/
def evRenamePath : Ev → Option (List Str)
  | Ev.renameFile dp a _ => some (dp ++ [a])
  | Ev.renameDir dp a _ => some (dp ++ [a])
  | _ => none

/-- Segment-list test: `q` is `p` itself or an ancestor of `p`. -/
def segsPre : List Str → List Str → Bool
  | [], _ => true
  | _ :: _, [] => false
  | a :: as, b :: bs => a = b && segsPre as bs

/-- No file's content access touches a path already renamed away: in
trace `tr`, no content event strictly after a rename event touches the
renamed path or anything below it. -/
def SafeT (tr : List Ev) : Prop :=
  ∀ l1 e1 l2 e2 q p, tr = l1 ++ e1 :: l2 → e2 ∈ l2 →
    evRenamePath e1 = some q → evContentPath e2 = some p →
    segsPre q p = false

/-- The claimed per-directory order, as a decidable trace check: within
the visit of directory `dp`, every child-directory rename at `dp`
precedes every file visit at `dp` (scan returns `false` exactly when
some rename at `dp` happens after a file of `dp` was already
processed). -/
def c3scan (dp : List Str) : Bool → List Ev → Bool
  | _, [] => true
  | seen, Ev.visitFile dp' _ :: rest =>
    c3scan dp (seen || decide (dp' = dp)) rest
  | seen, Ev.renameDir dp' _ _ :: rest =>
    if decide (dp' = dp) && seen then false else c3scan dp seen rest
  | seen, _ :: rest => c3scan dp seen rest

/-- Child renames at `dp` all precede file visits at `dp`. -/
def renamesBeforeFilesAt (dp : List Str) (tr : List Ev) : Bool :=
  c3scan dp false tr

/-- Old names of the child-directory renames at `dp`, in trace order. -/
def collectRen (dp : List Str) : List Ev → List Str
  | [] => []
  | Ev.renameDir dp' a _ :: rest =>
    if dp' = dp then a :: collectRen dp rest else collectRen dp rest
  | _ :: rest => collectRen dp rest

/-- The level-0 view of an entry: its name, its content if a file, and
whether it is a directory (children hidden). -/
def topView : FsEntry → FsEntry
  | FsEntry.dir n _ => FsEntry.dir n []
  | FsEntry.file n c => FsEntry.file n c

theorem listPre_iff_append (t s : Str) :
    listPre t s = true ↔ ∃ d, s = t ++ d := by
  induction t generalizing s with
  | nil => simp [listPre]
  | cons a as ih =>
    cases s with
    | nil => simp [listPre]
    | cons b bs =>
      simp only [listPre, Bool.and_eq_true, decide_eq_true_eq, ih]
      constructor
      · rintro ⟨rfl, d, rfl⟩; exact ⟨d, rfl⟩
      · rintro ⟨d, h⟩
        have h1 : b = a := by
          have := congrArg (fun l => List.head? l) h
          simpa using this
        subst h1
        refine ⟨rfl, d, ?_⟩
        have := congrArg (fun l => List.tail l) h
        simpa using this

theorem replaceFuel_length (a : Char) (t' r : Str) (fuel : Nat) (s : Str)
    (hf : s.length ≤ fuel) :
    (replaceFuel a t' r fuel s).length + countFuel a t' fuel s * (t'.length + 1) =
      s.length + countFuel a t' fuel s * r.length := by
  induction fuel generalizing s with
  | zero =>
    have : s = [] := List.length_eq_zero.mp (Nat.le_zero.mp hf)
    subst this
    simp [replaceFuel, countFuel]
  | succ fuel ih =>
    cases s with
    | nil => simp [replaceFuel, countFuel]
    | cons b bs =>
      by_cases hpre : listPre (a :: t') (b :: bs) = true
      · obtain ⟨d, hd⟩ := (listPre_iff_append _ _).mp hpre
        have hbs : bs = t' ++ d := by
          have := congrArg List.tail hd; simpa using this
        have hlen : t'.length ≤ bs.length := by
          rw [hbs]; simp
        have hfl : (bs.drop t'.length).length ≤ fuel := by
          simp only [List.length_drop]
          simp only [List.length_cons] at hf
          omega
        have := ih (bs.drop t'.length) hfl
        simp only [replaceFuel, countFuel, hpre, if_true, List.length_append,
          List.length_cons]
        rw [Nat.add_mul, Nat.add_mul, Nat.one_mul, Nat.one_mul]
        simp only [List.length_drop] at this ⊢
        omega
      · have hfl : bs.length ≤ fuel := by
          simp only [List.length_cons] at hf; omega
        have := ih bs hfl
        simp only [replaceFuel, countFuel, hpre, if_false, Bool.false_eq_true,
          List.length_cons]
        omega

theorem occursNE_countFuel (a : Char) (t' : Str) (fuel : Nat) (s : Str)
    (hf : s.length ≤ fuel) (h : occursNE (a :: t') s = true) :
    1 ≤ countFuel a t' fuel s := by
  induction fuel generalizing s with
  | zero =>
    have : s = [] := List.length_eq_zero.mp (Nat.le_zero.mp hf)
    subst this
    simp [occursNE] at h
  | succ fuel ih =>
    cases s with
    | nil => simp [occursNE] at h
    | cons b bs =>
      by_cases hpre : listPre (a :: t') (b :: bs) = true
      · simp [countFuel, hpre]
      · have h2 : occursNE (a :: t') bs = true := by
          simp only [occursNE, Bool.or_eq_true] at h
          rcases h with h | h
          · exact absurd h hpre
          · exact h
        have hfl : bs.length ≤ fuel := by
          simp only [List.length_cons] at hf; omega
        simp only [countFuel, hpre, if_false, Bool.false_eq_true]
        exact ih bs hfl h2

theorem replaceFuel_ne_of_len_eq (a : Char) (t' r : Str) (fuel : Nat) (s : Str)
    (hf : s.length ≤ fuel)
    (hocc : occursNE (a :: t') s = true)
    (hlen : r.length = t'.length + 1) (hne : r ≠ a :: t') :
    replaceFuel a t' r fuel s ≠ s := by
  induction fuel generalizing s with
  | zero =>
    have : s = [] := List.length_eq_zero.mp (Nat.le_zero.mp hf)
    subst this
    simp [occursNE] at hocc
  | succ fuel ih =>
    cases s with
    | nil => simp [occursNE] at hocc
    | cons b bs =>
      by_cases hpre : listPre (a :: t') (b :: bs) = true
      · obtain ⟨d, hd⟩ := (listPre_iff_append _ _).mp hpre
        intro heq
        simp only [replaceFuel, hpre, if_true] at heq
        rw [hd] at heq
        have hinj := List.append_inj heq (by simpa using hlen)
        exact hne hinj.1
      · have h2 : occursNE (a :: t') bs = true := by
          simp only [occursNE, Bool.or_eq_true] at hocc
          rcases hocc with h | h
          · exact absurd h hpre
          · exact h
        have hfl : bs.length ≤ fuel := by
          simp only [List.length_cons] at hf; omega
        intro heq
        simp only [replaceFuel, hpre, if_false, Bool.false_eq_true,
          List.cons.injEq] at heq
        exact ih bs hfl h2 heq.2

theorem replaceCore_ne_of_len_ne (a : Char) (t' r : Str) (s : Str)
    (hocc : occursNE (a :: t') s = true)
    (hlen : r.length ≠ t'.length + 1) :
    replaceCore a t' r s ≠ s := by
  intro heq
  have hlit := replaceFuel_length a t' r s.length s (Nat.le_refl _)
  rw [show replaceFuel a t' r s.length s = replaceCore a t' r s from rfl, heq] at hlit
  have hC := occursNE_countFuel a t' s.length s (Nat.le_refl _) hocc
  have h2 : countFuel a t' s.length s * (t'.length + 1) =
      countFuel a t' s.length s * r.length := by
    omega
  have := Nat.eq_of_mul_eq_mul_left (by omega : 0 < countFuel a t' s.length s) h2
  omega

theorem replaceEmptyPat_length_gt (r : Str) (hr : r ≠ []) (s : Str) :
    s.length < (replaceEmptyPat r s).length := by
  induction s with
  | nil =>
    have : 0 < r.length := List.length_pos.mpr hr
    simpa [replaceEmptyPat] using this
  | cons c cs ih =>
    simp only [replaceEmptyPat, List.length_append, List.length_cons]
    omega

/-- If the token occurs in the content and differs from the replacement,
Rust's replace-all produces a string different from the input. -/
theorem replaceAll_ne (t r s : Str) (hocc : occurs t s = true) (hne : t ≠ r) :
    replaceAll t r s ≠ s := by
  match t with
  | [] =>
    have hr : r ≠ [] := fun h => hne h.symm
    intro heq
    have hlt := replaceEmptyPat_length_gt r hr s
    have h2 : replaceEmptyPat r s = s := heq
    rw [h2] at hlt
    omega
  | a :: t' =>
    have hocc' : occursNE (a :: t') s = true := hocc
    by_cases hlen : r.length = t'.length + 1
    · exact replaceFuel_ne_of_len_eq a t' r s.length s (Nat.le_refl _) hocc' hlen
        (fun h => hne h.symm)
    · exact replaceCore_ne_of_len_ne a t' r s hocc' hlen

theorem takeWhile_length_le' (p : Char → Bool) (l : List Char) :
    (l.takeWhile p).length ≤ l.length := by
  induction l with
  | nil => simp
  | cons c cs ih =>
    by_cases h : p c = true
    · simp [List.takeWhile, h]
      omega
    · simp [List.takeWhile, h]

theorem parseRun_length (rest : Str) (run post : Str)
    (h : parseRun rest = some (run, post)) :
    run.length + 2 + post.length = rest.length := by
  unfold parseRun at h
  dsimp only at h
  split at h
  · cases h
    rename_i hcond
    simp only [Bool.and_eq_true, decide_eq_true_eq] at hcond
    obtain ⟨d, hd⟩ := (listPre_iff_append _ _).mp hcond.2
    have h1 := takeWhile_length_le' (fun c => c ≠ '\x7d') rest
    have h4 : 2 ≤ (rest.drop (rest.takeWhile (fun c : Char => decide (c ≠ '\x7d'))).length).length := by
      rw [hd]
      simp [str]
    simp only [List.length_drop] at h4 ⊢
    omega
  · cases h

theorem jinjaSplit_length (s : Str) :
    ∀ m, jinjaSplit s = some m →
      m.pre.length + m.inner.length + 4 + m.post.length = s.length := by
  induction s with
  | nil =>
    intro m h
    rw [jinjaSplit.eq_1] at h
    cases h
  | cons c cs ih =>
    intro m h
    by_cases hsp : ∃ rest, c = '\x7b' ∧ cs = '\x7b' :: rest
    · obtain ⟨rest, rfl, rfl⟩ := hsp
      rw [jinjaSplit.eq_2] at h
      cases hp : parseRun rest with
      | some pr =>
        obtain ⟨run, post⟩ := pr
        rw [hp] at h
        cases h
        have := parseRun_length rest run post hp
        simp only [List.length_cons, List.length_nil]
        omega
      | none =>
        rw [hp] at h
        obtain ⟨m', hm', rfl⟩ := Option.map_eq_some'.mp h
        have hlen := ih m' hm'
        simp only [List.length_cons] at hlen ⊢
        omega
    · have hne : ∀ (rest : List Char), c = '\x7b' → cs = '\x7b' :: rest → False := by
        intro rest h1 h2
        exact hsp ⟨rest, h1, h2⟩
      rw [jinjaSplit.eq_3 c cs hne] at h
      obtain ⟨m', hm', rfl⟩ := Option.map_eq_some'.mp h
      have hlen := ih m' hm'
      simp only [List.length_cons] at hlen ⊢
      omega

theorem escapeFuel_adequate (fuel : Nat) : ∀ (fuel' : Nat) (s : Str),
    s.length ≤ fuel → s.length ≤ fuel' →
    escapeFuel fuel s = escapeFuel fuel' s := by
  induction fuel with
  | zero =>
    intro fuel' s h h'
    have hz : s = [] := List.length_eq_zero.mp (Nat.le_zero.mp h)
    subst hz
    cases fuel' with
    | zero => rfl
    | succ f => simp [escapeFuel, jinjaSplit]
  | succ fuel ih =>
    intro fuel' s h h'
    cases fuel' with
    | zero =>
      have hz : s = [] := List.length_eq_zero.mp (Nat.le_zero.mp h')
      subst hz
      simp [escapeFuel, jinjaSplit]
    | succ f =>
      cases hm : jinjaSplit s with
      | none => simp only [escapeFuel, hm]
      | some m =>
        have hlen := jinjaSplit_length s m hm
        have h1 : m.post.length ≤ fuel := by omega
        have h2 : m.post.length ≤ f := by omega
        simp only [escapeFuel, hm]
        rw [ih f m.post h1 h2]

/-- C7 counterexample: with token and replacement both "a", the token
occurs in content "a" but `process_content` returns the input text
unchanged, contradicting the claim that a returned text always differs
from the input. -/
theorem c7_counterexample :
    (ExactTemplater.new (str "a") (str "a")).process_content (str "a")
      = some (str "a") := rfl

/-- C7 (amended): for every content string and Exact-Literal strategy,
`transform_content` returns the text with every occurrence of the token
replaced when the token occurs as a literal substring, and `None`
otherwise; and whenever the token occurs and additionally differs from
the replacement, the returned text differs from the input.  (The
original claim omitted the token-differs-from-replacement proviso.) -/
theorem c7_exact_content_replacement (tp : ExactTemplater) (content : Str) :
    (tp.process_content content = none ↔ occurs tp.token content = false)
    ∧ (occurs tp.token content = true →
        tp.process_content content = some (replaceAll tp.token tp.replacement content))
    ∧ (occurs tp.token content = true → tp.token ≠ tp.replacement →
        replaceAll tp.token tp.replacement content ≠ content) := by
  refine ⟨?_, ?_, ?_⟩
  · cases h : occurs tp.token content
    · simp [ExactTemplater.process_content, h]
    · simp [ExactTemplater.process_content, h]
  · intro h
    simp [ExactTemplater.process_content, h]
  · intro h hne
    exact replaceAll_ne _ _ _ h hne

/-- C7 witness: the scenario token "example-name", replacement
"\x7b\x7b project-name \x7d\x7d" applied to
"an example-name project with example-name refs" replaces both
occurrences and changes the text. -/
theorem c7_exact_content_replacement_witness :
    (ExactTemplater.new (str "example-name")
        (str "\x7b\x7b project-name \x7d\x7d")).process_content
        (str "an example-name project with example-name refs")
      = some (str "an \x7b\x7b project-name \x7d\x7d project with \x7b\x7b project-name \x7d\x7d refs")
    ∧ (str "an \x7b\x7b project-name \x7d\x7d project with \x7b\x7b project-name \x7d\x7d refs" : Str)
      ≠ str "an example-name project with example-name refs" := by
  constructor
  · exact (c7_exact_content_replacement
      (ExactTemplater.new (str "example-name") (str "\x7b\x7b project-name \x7d\x7d"))
      (str "an example-name project with example-name refs")).2.1 rfl
  · intro h
    exact (c7_exact_content_replacement
      (ExactTemplater.new (str "example-name") (str "\x7b\x7b project-name \x7d\x7d"))
      (str "an example-name project with example-name refs")).2.2 rfl (by decide) h

/-- C8 (the code, evaluated at the failing input): escaping
"Hi \x7b\x7b name \x7d\x7d!" produces
"Hi \x7b\x7b'\x7b'\x7d\x7d\x7b name \x7d!", whose notional render is
"Hi \x7b\x7b name \x7d!" -- one closing brace of the original
delimiter pair is lost, so the round trip is not verbatim. -/
theorem c8_escape_render_drops_brace :
    JinjaEscaper.escape_content (str "Hi \x7b\x7b name \x7d\x7d!")
      = some (str "Hi \x7b\x7b'\x7b'\x7d\x7d\x7b name \x7d!")
    ∧ renderNotional (str "Hi \x7b\x7b'\x7b'\x7d\x7d\x7b name \x7d!")
      = str "Hi \x7b\x7b name \x7d!"
    ∧ (str "Hi \x7b\x7b name \x7d!" : Str) ≠ str "Hi \x7b\x7b name \x7d\x7d!" :=
  ⟨rfl, rfl, by decide⟩

/-- C10: Syntax-Escape is not idempotent: the escape of
"\x7b\x7b name \x7d\x7d" still contains a match of the detection
pattern, so a second application returns `Some` of a different string. -/
theorem c10_escape_not_idempotent :
    JinjaEscaper.escape_content (str "\x7b\x7b name \x7d\x7d")
      = some (str "\x7b\x7b'\x7b'\x7d\x7d\x7b name \x7d")
    ∧ JinjaEscaper.escape_content (str "\x7b\x7b'\x7b'\x7d\x7d\x7b name \x7d")
      = some (str "\x7b\x7b'\x7b'\x7d\x7d\x7b '\x7b' \x7d\x7b name \x7d")
    ∧ (str "\x7b\x7b'\x7b'\x7d\x7d\x7b '\x7b' \x7d\x7b name \x7d" : Str)
      ≠ str "\x7b\x7b'\x7b'\x7d\x7d\x7b name \x7d" :=
  ⟨rfl, rfl, by decide⟩

theorem lookupA_insert (k0 v0 k : Str) (m : List (Str × Str)) :
    lookupA (insertAssoc k0 v0 m) k = if k0 = k then some v0 else lookupA m k := by
  induction m with
  | nil => simp [insertAssoc, lookupA]
  | cons p m ih =>
    obtain ⟨k', v'⟩ := p
    by_cases hk : k' = k0
    · subst hk
      simp only [insertAssoc, if_pos rfl]
      by_cases h2 : k' = k
      · subst h2; simp [lookupA]
      · simp [lookupA, h2]
    · simp only [insertAssoc, if_neg hk]
      by_cases h2 : k' = k
      · subst h2
        have h3 : ¬ k0 = k' := fun h => hk h.symm
        simp [lookupA, h3]
      · simp [lookupA, h2, ih]

theorem lookupLast_append_single (ps : List (Str × Str)) (k0 v0 k : Str) :
    lookupLast (ps ++ [(k0, v0)]) k = if k0 = k then some v0 else lookupLast ps k := by
  induction ps with
  | nil => simp [lookupLast]
  | cons p ps ih =>
    obtain ⟨k', v'⟩ := p
    have hl : lookupLast (((k', v') :: ps) ++ [(k0, v0)]) k
        = match lookupLast (ps ++ [(k0, v0)]) k with
          | some v'' => some v''
          | none => if k' = k then some v' else none := rfl
    have hr : lookupLast ((k', v') :: ps) k
        = match lookupLast ps k with
          | some v'' => some v''
          | none => if k' = k then some v' else none := rfl
    rw [hl, ih, hr]
    by_cases h0 : k0 = k
    · simp [h0]
    · simp [h0]

theorem lookupA_insertList (ps : List (Str × Str)) (m0 : List (Str × Str)) (k : Str) :
    lookupA (insertList ps m0) k =
      match lookupLast ps k with
      | some v => some v
      | none => lookupA m0 k := by
  induction ps generalizing m0 with
  | nil => simp [insertList, lookupLast]
  | cons p ps ih =>
    obtain ⟨kp, vp⟩ := p
    have hstep : insertList ((kp, vp) :: ps) m0 = insertList ps (insertAssoc kp vp m0) := rfl
    rw [hstep, ih]
    simp only [lookupLast]
    cases lookupLast ps k with
    | some v => rfl
    | none =>
      rw [lookupA_insert]
      by_cases h : kp = k
      · simp [h]
      · simp [h]

theorem shapeStep_snd_true (l : List (Str × Str)) (c : Str) :
    (l.foldl shapeStep (c, true)).2 = true := by
  induction l generalizing c with
  | nil => rfl
  | cons kv l ih =>
    simp only [List.foldl_cons, shapeStep]
    by_cases h : occurs kv.1 c = true
    · simp only [h, if_true]
      exact ih _
    · simp only [h, if_false, Bool.false_eq_true]
      exact ih c

theorem shapeStep_found_iff (l : List (Str × Str)) (c : Str) :
    (l.foldl shapeStep (c, false)).2 = true ↔ ∃ kv ∈ l, occurs kv.1 c = true := by
  induction l generalizing c with
  | nil => simp [List.foldl_nil]
  | cons kv l ih =>
    rw [List.foldl_cons]
    by_cases h : occurs kv.1 c = true
    · rw [show shapeStep (c, false) kv = (replaceAll kv.1 kv.2 c, true) from by
        simp [shapeStep, h]]
      constructor
      · intro _
        exact ⟨kv, List.mem_cons_self kv l, h⟩
      · intro _
        exact shapeStep_snd_true l _
    · rw [show shapeStep (c, false) kv = (c, false) from by simp [shapeStep, h]]
      rw [ih]
      constructor
      · rintro ⟨kv', hmem, hocc⟩
        exact ⟨kv', List.mem_cons_of_mem kv hmem, hocc⟩
      · rintro ⟨kv', hmem, hocc⟩
        rcases List.mem_cons.mp hmem with rfl | hmem'
        · exact absurd hocc h
        · exact ⟨kv', hmem', hocc⟩

/-- C4: for every successfully constructed Case-Shape strategy and
content string, `transform_content` tries the entries in an order that
is a permutation of the mapping sorted by non-increasing key length
(strictly longest key first, so a shorter key is never tried while a
longer key's occurrences are still untouched), replaces all occurrences
of each key that occurs, and returns `Some` precisely when at least one
mapping key occurs in the text. -/
theorem c4_case_shape_longest_first (token repl : Str) (tp : CaseShapeTemplater)
    (_hnew : CaseShapeTemplater.new token repl = Except.ok tp) (content : Str) :
    List.Pairwise keyLenGe (sortedReplacements tp.replacements)
    ∧ (sortedReplacements tp.replacements).Perm tp.replacements
    ∧ ((tp.process_content content).isSome = true ↔
        ∃ kv ∈ tp.replacements, occurs kv.1 content = true) := by
  refine ⟨?_, ?_, ?_⟩
  · exact List.sorted_insertionSort keyLenGe tp.replacements
  · exact List.perm_insertionSort keyLenGe tp.replacements
  · have hchar : (tp.process_content content).isSome
        = ((sortedReplacements tp.replacements).foldl shapeStep (content, false)).2 := by
      unfold CaseShapeTemplater.process_content
      cases hb : ((sortedReplacements tp.replacements).foldl shapeStep (content, false)).2
      · simp [hb]
      · simp [hb]
    rw [hchar, shapeStep_found_iff]
    constructor
    · rintro ⟨kv, hkv, hocc⟩
      exact ⟨kv, ((List.perm_insertionSort keyLenGe tp.replacements).mem_iff).mp hkv, hocc⟩
    · rintro ⟨kv, hkv, hocc⟩
      exact ⟨kv, ((List.perm_insertionSort keyLenGe tp.replacements).mem_iff).mpr hkv, hocc⟩

/-- C4 witness: the strategy built from "example-name" and
"\x7b\x7b project-name \x7d\x7d" on the spec scenario content. -/
theorem c4_case_shape_longest_first_witness :
    List.Pairwise keyLenGe (sortedReplacements
      (buildReplacements (str "example-name") (str "\x7b\x7b project-name \x7d\x7d")))
    ∧ (sortedReplacements (buildReplacements (str "example-name")
        (str "\x7b\x7b project-name \x7d\x7d"))).Perm
        (buildReplacements (str "example-name") (str "\x7b\x7b project-name \x7d\x7d"))
    ∧ (((⟨buildReplacements (str "example-name")
          (str "\x7b\x7b project-name \x7d\x7d")⟩ : CaseShapeTemplater).process_content
          (str "final ExampleName exampleName = new ExampleName();")).isSome = true ↔
        ∃ kv ∈ buildReplacements (str "example-name") (str "\x7b\x7b project-name \x7d\x7d"),
          occurs kv.1 (str "final ExampleName exampleName = new ExampleName();") = true) :=
  c4_case_shape_longest_first (str "example-name") (str "\x7b\x7b project-name \x7d\x7d")
    ⟨buildReplacements (str "example-name") (str "\x7b\x7b project-name \x7d\x7d")⟩ rfl
    (str "final ExampleName exampleName = new ExampleName();")

/-- C5: for every valid compound (token, replacement) pair, the mapping
built by `CaseShapeTemplater::new` binds exactly the keys of the seven
casing-variant pairs plus the literal as-typed pair, each to the value
of its last-inserted pair (duplicate keys collapsed by key uniqueness,
later insertions winning): lookup in the built map agrees everywhere
with last-binding lookup in the claim's pair list. -/
theorem c5_case_shape_mapping_pairs (token repl : Str) (tp : CaseShapeTemplater)
    (hnew : CaseShapeTemplater.new token repl = Except.ok tp) :
    ∀ k, lookupA tp.replacements k = lookupLast (specShapePairs token repl) k := by
  intro k
  unfold CaseShapeTemplater.new at hnew
  by_cases h1 : hasCompound token
  · by_cases h2 : hasCompound repl
    · simp only [h1, h2, Bool.not_true, Bool.false_eq_true, if_false] at hnew
      cases hnew
      show lookupA (buildReplacements token repl) k = _
      unfold buildReplacements specShapePairs
      rw [lookupA_insert, lookupA_insertList, lookupLast_append_single]
      by_cases h : token = k
      · simp [h]
      · simp only [if_neg h]
        cases lookupLast (caseList.map
            (fun c => (toCase c token, replVariant repl c))) k with
        | some v => rfl
        | none => rfl
    · simp only [h1, h2, Bool.not_true, Bool.not_false, Bool.false_eq_true,
        if_false, if_true] at hnew
      cases hnew
  · simp only [h1, Bool.not_false, if_true] at hnew
    cases hnew

/-- C5 witness: concrete lookups in the mapping for token
"example-name" and replacement "\x7b\x7b project-name \x7d\x7d". -/
theorem c5_case_shape_mapping_pairs_witness :
    lookupA (buildReplacements (str "example-name")
        (str "\x7b\x7b project-name \x7d\x7d")) (str "exampleName")
      = lookupLast (specShapePairs (str "example-name")
        (str "\x7b\x7b project-name \x7d\x7d")) (str "exampleName") :=
  c5_case_shape_mapping_pairs (str "example-name") (str "\x7b\x7b project-name \x7d\x7d")
    ⟨buildReplacements (str "example-name") (str "\x7b\x7b project-name \x7d\x7d")⟩ rfl
    (str "exampleName")

/-- C6 counterexample: "Foo" has no hyphen, no underscore and no
internal uppercase letter, so the claim says construction must fail;
the code accepts any uppercase letter (including the first) and
construction succeeds. -/
theorem c6_counterexample :
    isOkE (CaseShapeTemplater.new (str "Foo") (str "bar-baz")) = true
    ∧ specCompound (str "Foo") = false :=
  ⟨rfl, rfl⟩

theorem segsPre_length (q p : List Str) (h : segsPre q p = true) :
    q.length ≤ p.length := by
  induction q generalizing p with
  | nil => simp
  | cons a as ih =>
    cases p with
    | nil => simp [segsPre] at h
    | cons b bs =>
      simp only [segsPre, Bool.and_eq_true, decide_eq_true_eq] at h
      have := ih bs h.2
      simp only [List.length_cons]
      omega

theorem segsPre_append_head (xs : List Str) (a b : Str) (u v : List Str)
    (h : segsPre (xs ++ a :: u) (xs ++ b :: v) = true) : a = b := by
  induction xs with
  | nil =>
    simp only [List.nil_append, segsPre, Bool.and_eq_true, decide_eq_true_eq] at h
    exact h.1
  | cons x xs ih =>
    simp only [List.cons_append, segsPre, Bool.and_eq_true, decide_eq_true_eq] at h
    exact ih h.2

theorem segsPre_eq_of_length (q p : List Str) (h : segsPre q p = true)
    (hl : q.length = p.length) : q = p := by
  induction q generalizing p with
  | nil =>
    cases p with
    | nil => rfl
    | cons b bs => simp at hl
  | cons a as ih =>
    cases p with
    | nil => simp [segsPre] at h
    | cons b bs =>
      simp only [segsPre, Bool.and_eq_true, decide_eq_true_eq] at h
      simp only [List.length_cons] at hl
      rw [h.1, ih bs h.2 (by omega)]

theorem safeT_nil : SafeT [] := by
  intro l1 e1 l2 e2 q p h
  exact absurd h (by simp)

theorem safeT_tail (x : Ev) (l : List Ev) (h : SafeT (x :: l)) : SafeT l := by
  intro l1 e1 l2 e2 q p hsplit hmem hq hp
  exact h (x :: l1) e1 l2 e2 q p (by rw [hsplit]; rfl) hmem hq hp

theorem safeT_no_rename (tr : List Ev)
    (h : ∀ e ∈ tr, evRenamePath e = none) : SafeT tr := by
  intro l1 e1 l2 e2 q p hsplit hmem hq hp
  have he1 : e1 ∈ tr := by
    rw [hsplit]; exact List.mem_append_right _ (List.mem_cons_self _ _)
  rw [h e1 he1] at hq
  cases hq

theorem safeT_no_content (tr : List Ev)
    (h : ∀ e ∈ tr, evContentPath e = none) : SafeT tr := by
  intro l1 e1 l2 e2 q p hsplit hmem hq hp
  have he2 : e2 ∈ tr := by
    rw [hsplit]
    exact List.mem_append_right _ (List.mem_cons_of_mem _ hmem)
  rw [h e2 he2] at hp
  cases hp

theorem safeT_append (A B : List Ev) (hA : SafeT A) (hB : SafeT B)
    (hcross : ∀ e1 ∈ A, ∀ e2 ∈ B, ∀ q p, evRenamePath e1 = some q →
      evContentPath e2 = some p → segsPre q p = false) :
    SafeT (A ++ B) := by
  induction A with
  | nil => simpa using hB
  | cons a A ih =>
    intro l1 e1 l2 e2 q p hsplit hmem hq hp
    cases l1 with
    | nil =>
      simp only [List.nil_append, List.cons_append, List.cons.injEq] at hsplit
      obtain ⟨ha, hl2⟩ := hsplit
      subst ha
      rw [← hl2] at hmem
      rcases List.mem_append.mp hmem with hm | hm
      · exact hA [] a A e2 q p rfl hm hq hp
      · exact hcross a (List.mem_cons_self _ _) e2 hm q p hq hp
    | cons x l1' =>
      simp only [List.cons_append, List.cons.injEq] at hsplit
      obtain ⟨rfl, hsplit'⟩ := hsplit
      exact ih (safeT_tail _ _ hA)
        (fun e1' h1 e2' h2 => hcross e1' (List.mem_cons_of_mem _ h1) e2' h2)
        l1' e1 l2 e2 q p hsplit' hmem hq hp

/-- Splitting an append at an element not in the left part: everything
after the element lies in the right part. -/
theorem mem_right_of_split {α : Type} (xs ys l1 l2 : List α) (e : α)
    (h : xs ++ ys = l1 ++ e :: l2) (he : e ∉ xs) : ∀ x ∈ l2, x ∈ ys := by
  induction xs generalizing l1 with
  | nil =>
    intro x hx
    simp only [List.nil_append] at h
    rw [h]
    exact List.mem_append_right _ (List.mem_cons_of_mem _ hx)
  | cons a xs ih =>
    intro x hx
    cases l1 with
    | nil =>
      simp only [List.cons_append, List.nil_append, List.cons.injEq] at h
      exact absurd (h.1 ▸ List.mem_cons_self a xs) he
    | cons y l1' =>
      simp only [List.cons_append, List.cons.injEq] at h
      exact ih l1' h.2 (fun hm => he (List.mem_cons_of_mem _ hm)) x hx

theorem fileContentStep_trace_mem (st : Strat) (o : TemplateOptions) (dp : List Str)
    (n : Str) (c : Option Str) :
    ∀ e ∈ (fileContentStep st o dp n c).2.2,
      e = Ev.readFile dp n ∨ e = Ev.writeFile dp n := by
  intro e he
  unfold fileContentStep at he
  split at he
  · split at he
    · split at he
      · split at he <;> simp_all
      · simp_all
    · simp_all
  · simp_all

theorem fileRenameStep_trace_mem (st : Strat) (o : TemplateOptions) (dp : List Str)
    (n : Str) :
    ∀ e ∈ (fileRenameStep st o dp n).2.2,
      ∃ b, e = Ev.renameFile dp n b ∧ st.procComponent n = some b
        ∧ o.dry_run = false ∧ o.process_paths = true := by
  intro e he
  unfold fileRenameStep at he
  split at he
  · split at he
    · split at he <;> simp_all
    · simp_all
  · simp_all

theorem processFileM_trace_mem (st : Strat) (o : TemplateOptions) (dp : List Str)
    (n : Str) (c : Option Str) :
    ∀ e ∈ (processFileM st o dp n c).trace,
      e = Ev.visitFile dp n ∨ e = Ev.readFile dp n ∨ e = Ev.writeFile dp n
      ∨ ∃ b, e = Ev.renameFile dp n b ∧ st.procComponent n = some b
          ∧ o.dry_run = false ∧ o.process_paths = true := by
  intro e he
  simp only [processFileM, List.mem_cons, List.mem_append] at he
  rcases he with rfl | he | he
  · exact Or.inl rfl
  · rcases fileContentStep_trace_mem st o dp n c e he with h | h
    · exact Or.inr (Or.inl h)
    · exact Or.inr (Or.inr (Or.inl h))
  · exact Or.inr (Or.inr (Or.inr (fileRenameStep_trace_mem st o dp n e he)))

theorem safeT_processFileM (st : Strat) (o : TemplateOptions) (dp : List Str)
    (n : Str) (c : Option Str) :
    SafeT (processFileM st o dp n c).trace := by
  show SafeT (Ev.visitFile dp n ::
    ((fileContentStep st o dp n c).2.2 ++ (fileRenameStep st o dp n).2.2))
  have hA : SafeT (Ev.visitFile dp n :: (fileContentStep st o dp n c).2.2) := by
    apply safeT_no_rename
    intro e he
    rcases List.mem_cons.mp he with rfl | he'
    · rfl
    · rcases fileContentStep_trace_mem st o dp n c e he' with rfl | rfl <;> rfl
  have hB : SafeT (fileRenameStep st o dp n).2.2 := by
    apply safeT_no_content
    intro e he
    obtain ⟨b, rfl, -⟩ := fileRenameStep_trace_mem st o dp n e he
    rfl
  have := safeT_append _ _ hA hB (by
    intro e1 h1 e2 h2 q p hq hp
    exfalso
    rcases List.mem_cons.mp h1 with rfl | h1'
    · cases hq
    · rcases fileContentStep_trace_mem st o dp n c e1 h1' with rfl | rfl <;> cases hq)
  simpa using this

theorem memName_true_iff (n : Str) (ms : List Str) :
    memName n ms = true ↔ n ∈ ms := by
  induction ms with
  | nil => simp [memName]
  | cons m ms ih =>
    simp [memName, ih, List.mem_cons]

theorem nodup_head (n : Str) (ms : List Str) (h : nodupNames (n :: ms) = true) :
    memName n ms = false ∧ nodupNames ms = true := by
  simp only [nodupNames, Bool.and_eq_true, Bool.not_eq_true'] at h
  exact h

theorem dirNames_subset_namesOf (n : Str) (es : List FsEntry)
    (h : n ∈ dirNames es) : n ∈ namesOf es := by
  induction es with
  | nil => simp [dirNames] at h
  | cons e rest ih =>
    cases e with
    | file m c =>
      simp only [dirNames] at h
      exact List.mem_cons_of_mem _ (ih h)
    | dir m cs =>
      simp only [dirNames, List.mem_cons] at h
      rcases h with rfl | h
      · exact List.mem_cons_self _ _
      · exact List.mem_cons_of_mem _ (ih h)

theorem evRenamePath_shape (e : Ev) (q : List Str) (h : evRenamePath e = some q) :
    ∃ a, q = evParent e ++ [a] := by
  cases e <;> simp [evRenamePath, evParent] at h ⊢
  · exact ⟨_, h.symm⟩
  · exact ⟨_, h.symm⟩

theorem evContentPath_shape (e : Ev) (p : List Str) (h : evContentPath e = some p) :
    ∃ x, p = evParent e ++ [x] := by
  cases e <;> simp [evContentPath, evParent] at h ⊢
  · exact ⟨_, h.symm⟩
  · exact ⟨_, h.symm⟩

theorem filesPhase_trace_mem (st : Strat) (o : TemplateOptions) (dp : List Str)
    (es : List FsEntry) :
    ∀ e ∈ (filesPhase st o dp es).trace,
      ∃ n, n ∈ namesOf es ∧
        (e = Ev.visitFile dp n ∨ e = Ev.readFile dp n ∨ e = Ev.writeFile dp n
          ∨ ∃ b, e = Ev.renameFile dp n b ∧ st.procComponent n = some b) := by
  induction es with
  | nil =>
    intro e he
    simp [filesPhase] at he
  | cons hd rest ih =>
    intro e he
    cases hd with
    | dir m cs =>
      simp only [filesPhase] at he
      obtain ⟨n, hn, hshape⟩ := ih e he
      exact ⟨n, List.mem_cons_of_mem _ hn, hshape⟩
    | file m c =>
      simp only [filesPhase, List.mem_append] at he
      rcases he with he | he
      · rcases processFileM_trace_mem st o dp m c e he with h | h | h | ⟨b, hb, hc, -⟩
        · exact ⟨m, List.mem_cons_self _ _, Or.inl h⟩
        · exact ⟨m, List.mem_cons_self _ _, Or.inr (Or.inl h)⟩
        · exact ⟨m, List.mem_cons_self _ _, Or.inr (Or.inr (Or.inl h))⟩
        · exact ⟨m, List.mem_cons_self _ _, Or.inr (Or.inr (Or.inr ⟨b, hb, hc⟩))⟩
      · obtain ⟨n, hn, hshape⟩ := ih e he
        exact ⟨n, List.mem_cons_of_mem _ hn, hshape⟩

theorem safeT_filesPhase (st : Strat) (o : TemplateOptions) (dp : List Str)
    (es : List FsEntry) (hnod : nodupNames (namesOf es) = true) :
    SafeT (filesPhase st o dp es).trace := by
  induction es with
  | nil =>
    simpa [filesPhase] using safeT_nil
  | cons hd rest ih =>
    cases hd with
    | dir m cs =>
      simp only [filesPhase]
      exact ih (nodup_head m (namesOf rest) hnod).2
    | file m c =>
      simp only [filesPhase]
      have hn := nodup_head m (namesOf rest) hnod
      apply safeT_append _ _ (safeT_processFileM st o dp m c) (ih hn.2)
      intro e1 h1 e2 h2 q p hq hp
      rcases processFileM_trace_mem st o dp m c e1 h1 with rfl | rfl | rfl | ⟨b, rfl, -⟩
      · cases hq
      · cases hq
      · cases hq
      · obtain ⟨n2, hn2, hshape⟩ := filesPhase_trace_mem st o dp rest e2 h2
        have hp2 : p = dp ++ [n2] := by
          rcases hshape with rfl | rfl | rfl | ⟨b2, rfl, -⟩
          · cases hp
          · simpa [evContentPath] using hp.symm
          · simpa [evContentPath] using hp.symm
          · cases hp
        have hq2 : q = dp ++ [m] := by
          simpa [evRenamePath] using hq.symm
        subst hp2 hq2
        by_contra hcon
        have hpre : segsPre (dp ++ [m]) (dp ++ [n2]) = true := by
          cases hh : segsPre (dp ++ [m]) (dp ++ [n2])
          · exact absurd hh hcon
          · rfl
        have : m = n2 := segsPre_append_head dp m n2 [] [] hpre
        subst this
        rw [(memName_true_iff m (namesOf rest)).mpr hn2] at hn
        exact absurd hn.1 (by simp)

theorem renameEvents_mem (st : Strat) (o : TemplateOptions) (dp : List Str)
    (ns : List Str) :
    ∀ e ∈ renameEvents st o dp ns,
      ∃ a b, e = Ev.renameDir dp a b ∧ st.procComponent a = some b
        ∧ o.dry_run = false ∧ a ∈ ns := by
  intro e he
  obtain ⟨a, ha, hf⟩ := List.mem_filterMap.mp he
  cases hc : st.procComponent a with
  | none => simp [hc] at hf
  | some b =>
    simp only [hc] at hf
    by_cases hd : o.dry_run = true
    · rw [if_pos hd] at hf; cases hf
    · rw [if_neg hd] at hf
      cases hf
      exact ⟨a, b, rfl, hc, by simpa using hd, ha⟩

theorem renamePhase_trace_mem (st : Strat) (o : TemplateOptions) (dp : List Str)
    (es : List FsEntry) :
    ∀ e ∈ (renamePhase st o dp es).trace,
      ∃ a b, e = Ev.renameDir dp a b ∧ st.procComponent a = some b
        ∧ o.dry_run = false ∧ a ∈ dirNames es := by
  intro e he
  unfold renamePhase at he
  split at he
  · obtain ⟨a, b, rfl, hc, hd, ha⟩ := renameEvents_mem st o dp _ e he
    exact ⟨a, b, rfl, hc, hd, List.mem_reverse.mp ha⟩
  · simp at he

/-- One directory visit is rename-safe: the recursion trace first (all
its events live strictly below `dp`), then this directory's file
processing (content accesses at `dp` only), then this directory's
subdirectory renames (no content accesses at all). -/
theorem safeT_composite (dp : List Str) (T1 T2 T3 : List Ev)
    (h1safe : SafeT T1)
    (h1loc : ∀ e ∈ T1, ∃ n r, evParent e = dp ++ n :: r)
    (h2safe : SafeT T2)
    (h2cp : ∀ e ∈ T2, ∀ p, evContentPath e = some p → ∃ x, p = dp ++ [x])
    (h3nc : ∀ e ∈ T3, evContentPath e = none) :
    SafeT (Ev.enumDir dp :: (T1 ++ (T2 ++ T3))) := by
  have h23 : SafeT (T2 ++ T3) := by
    apply safeT_append _ _ h2safe (safeT_no_content T3 h3nc)
    intro e1 h1 e2 h2 q p hq hp
    rw [h3nc e2 h2] at hp
    cases hp
  have h123 : SafeT (T1 ++ (T2 ++ T3)) := by
    apply safeT_append _ _ h1safe h23
    intro e1 h1 e2 h2 q p hq hp
    rcases List.mem_append.mp h2 with h2' | h2'
    · obtain ⟨n, r, hpar⟩ := h1loc e1 h1
      obtain ⟨a, hq2⟩ := evRenamePath_shape e1 q hq
      obtain ⟨x, hp2⟩ := h2cp e2 h2' p hp
      by_contra hcon
      have hpre : segsPre q p = true := by
        cases hh : segsPre q p
        · exact absurd hh hcon
        · rfl
      have hlen := segsPre_length q p hpre
      rw [hq2, hpar, hp2] at hlen
      simp only [List.length_append, List.length_cons] at hlen
      omega
    · rw [h3nc e2 h2'] at hp
      cases hp
  intro l1 e1 l2 e2 q p hsplit hmem hq hp
  cases l1 with
  | nil =>
    simp only [List.nil_append, List.cons.injEq] at hsplit
    rw [← hsplit.1] at hq
    cases hq
  | cons x l1' =>
    simp only [List.cons_append, List.cons.injEq] at hsplit
    exact h123 l1' e1 l2 e2 q p hsplit.2 hmem hq hp

theorem filesPhase_dirNames (st : Strat) (o : TemplateOptions) (dp : List Str)
    (es : List FsEntry) :
    dirNames (filesPhase st o dp es).entries = dirNames es := by
  induction es with
  | nil => simp [filesPhase, dirNames]
  | cons hd rest ih =>
    cases hd with
    | dir m cs => simp [filesPhase, dirNames, ih]
    | file m c => simp [filesPhase, dirNames, ih]

theorem walkPlainF_namesOf (st : Strat) (o : TemplateOptions) :
    ∀ fuel dp es, namesOf (walkPlainF st o fuel dp es).entries = namesOf es := by
  intro fuel
  induction fuel with
  | zero => intro dp es; rfl
  | succ fuel ih =>
    intro dp es
    cases es with
    | nil => rfl
    | cons hd rest =>
      cases hd with
      | file m c => simp [walkPlainF, namesOf, ih]
      | dir m cs => simp [walkPlainF, namesOf, ih]

theorem walkPlainF_dirNames (st : Strat) (o : TemplateOptions) :
    ∀ fuel dp es, dirNames (walkPlainF st o fuel dp es).entries = dirNames es := by
  intro fuel
  induction fuel with
  | zero => intro dp es; rfl
  | succ fuel ih =>
    intro dp es
    cases es with
    | nil => rfl
    | cons hd rest =>
      cases hd with
      | file m c => simp [walkPlainF, dirNames, ih]
      | dir m cs => simp [walkPlainF, dirNames, ih]

theorem walkPlainF_trace_loc (st : Strat) (o : TemplateOptions) :
    ∀ fuel dp es, ∀ e ∈ (walkPlainF st o fuel dp es).trace,
      ∃ n r, evParent e = dp ++ n :: r ∧ n ∈ dirNames es := by
  intro fuel
  induction fuel with
  | zero => intro dp es e he; simp [walkPlainF] at he
  | succ fuel ih =>
    intro dp es e he
    cases es with
    | nil => simp [walkPlainF] at he
    | cons hd rest =>
      cases hd with
      | file m c =>
        simp only [walkPlainF] at he
        exact ih dp rest e he
      | dir m cs =>
        simp only [walkPlainF, List.mem_append, List.mem_cons] at he
        rcases he with (rfl | ((he | he) | he)) | he
        · exact ⟨m, [], by simp [evParent], by simp [dirNames]⟩
        · obtain ⟨n2, r2, hpar, -⟩ := ih (dp ++ [m]) cs e he
          refine ⟨m, n2 :: r2, ?_, by simp [dirNames]⟩
          rw [hpar]
          simp
        · obtain ⟨x, -, hshape⟩ :=
            filesPhase_trace_mem st o (dp ++ [m]) _ e he
          refine ⟨m, [], ?_, by simp [dirNames]⟩
          rcases hshape with rfl | rfl | rfl | ⟨b, rfl, -⟩ <;> simp [evParent]
        · obtain ⟨a, b, rfl, -⟩ := renamePhase_trace_mem st o (dp ++ [m]) _ e he
          exact ⟨m, [], by simp [evParent], by simp [dirNames]⟩
        · obtain ⟨n2, r2, hpar, hmem⟩ := ih dp rest e he
          exact ⟨n2, r2, hpar, by simp [dirNames, hmem]⟩

theorem safeT_walkPlainF (st : Strat) (o : TemplateOptions) :
    ∀ fuel dp es, nodupNames (namesOf es) = true → wfList es = true →
      SafeT (walkPlainF st o fuel dp es).trace := by
  intro fuel
  induction fuel with
  | zero =>
    intro dp es hnod hwf
    exact safeT_nil
  | succ fuel ih =>
    intro dp es hnod hwf
    cases es with
    | nil => exact safeT_nil
    | cons hd rest =>
      cases hd with
      | file m c =>
        show SafeT (walkPlainF st o fuel dp rest).trace
        have hn : namesOf (FsEntry.file m c :: rest) = m :: namesOf rest := rfl
        rw [hn] at hnod
        have hw : wfList rest = true := by
          simp only [wfList] at hwf
          exact hwf
        exact ih dp rest (nodup_head m _ hnod).2 hw
      | dir m cs =>
        have hwf' : nodupNames (namesOf cs) = true ∧ wfList cs = true
            ∧ wfList rest = true := by
          simp only [wfList, Bool.and_eq_true] at hwf
          exact ⟨hwf.1.1, hwf.1.2, hwf.2⟩
        have hnod' : memName m (namesOf rest) = false
            ∧ nodupNames (namesOf rest) = true := by
          have : namesOf (FsEntry.dir m cs :: rest) = m :: namesOf rest := rfl
          rw [this] at hnod
          exact nodup_head m (namesOf rest) hnod
        have hw2names : namesOf (walkPlainF st o fuel (dp ++ [m]) cs).entries
            = namesOf cs := walkPlainF_namesOf st o fuel (dp ++ [m]) cs
        have hcompLoc : ∀ e ∈ (Ev.enumDir (dp ++ [m]) ::
            ((walkPlainF st o fuel (dp ++ [m]) cs).trace ++
              (filesPhase st o (dp ++ [m])
                (walkPlainF st o fuel (dp ++ [m]) cs).entries).trace ++
              (renamePhase st o (dp ++ [m])
                (filesPhase st o (dp ++ [m])
                  (walkPlainF st o fuel (dp ++ [m]) cs).entries).entries).trace)),
            ∃ r, evParent e = (dp ++ [m]) ++ r := by
          intro e he
          rcases List.mem_cons.mp he with rfl | he
          · exact ⟨[], by simp [evParent]⟩
          · rcases List.mem_append.mp he with he | he
            · rcases List.mem_append.mp he with he | he
              · obtain ⟨n2, r2, hpar, -⟩ :=
                  walkPlainF_trace_loc st o fuel (dp ++ [m]) cs e he
                exact ⟨n2 :: r2, hpar⟩
              · obtain ⟨x, -, hshape⟩ :=
                  filesPhase_trace_mem st o (dp ++ [m]) _ e he
                refine ⟨[], ?_⟩
                rcases hshape with rfl | rfl | rfl | ⟨b, rfl, -⟩ <;> simp [evParent]
            · obtain ⟨a, b, rfl, -⟩ := renamePhase_trace_mem st o (dp ++ [m]) _ e he
              exact ⟨[], by simp [evParent]⟩
        have hcompSafe : SafeT (Ev.enumDir (dp ++ [m]) ::
            ((walkPlainF st o fuel (dp ++ [m]) cs).trace ++
              (filesPhase st o (dp ++ [m])
                (walkPlainF st o fuel (dp ++ [m]) cs).entries).trace ++
              (renamePhase st o (dp ++ [m])
                (filesPhase st o (dp ++ [m])
                  (walkPlainF st o fuel (dp ++ [m]) cs).entries).entries).trace)) := by
          rw [List.append_assoc]
          apply safeT_composite
          · exact ih (dp ++ [m]) cs hwf'.1 hwf'.2.1
          · intro e he
            obtain ⟨n2, r2, hpar, -⟩ :=
              walkPlainF_trace_loc st o fuel (dp ++ [m]) cs e he
            exact ⟨n2, r2, hpar⟩
          · apply safeT_filesPhase
            rw [hw2names]
            exact hwf'.1
          · intro e he p hp
            obtain ⟨x, -, hshape⟩ := filesPhase_trace_mem st o (dp ++ [m]) _ e he
            rcases hshape with rfl | rfl | rfl | ⟨b, rfl, -⟩
            · cases hp
            · exact ⟨x, by simpa [evContentPath] using hp.symm⟩
            · exact ⟨x, by simpa [evContentPath] using hp.symm⟩
            · cases hp
          · intro e he
            obtain ⟨a, b, rfl, -⟩ := renamePhase_trace_mem st o (dp ++ [m]) _ e he
            rfl
        show SafeT ((Ev.enumDir (dp ++ [m]) :: (_ ++ _ ++ _)) ++
          (walkPlainF st o fuel dp rest).trace)
        apply safeT_append _ _ hcompSafe (ih dp rest hnod'.2 hwf'.2.2)
        intro e1 h1 e2 h2 q p hq hp
        obtain ⟨r, hpar1⟩ := hcompLoc e1 h1
        obtain ⟨a, hq2⟩ := evRenamePath_shape e1 q hq
        obtain ⟨n2, r2, hpar2, hmem2⟩ := walkPlainF_trace_loc st o fuel dp rest e2 h2
        obtain ⟨x, hp2⟩ := evContentPath_shape e2 p hp
        by_contra hcon
        have hpre : segsPre q p = true := by
          cases hh : segsPre q p
          · exact absurd hh hcon
          · rfl
        have hq3 : q = dp ++ m :: (r ++ [a]) := by
          rw [hq2, hpar1]
          simp
        have hp3 : p = dp ++ n2 :: (r2 ++ [x]) := by
          rw [hp2, hpar2]
          simp
        rw [hq3, hp3] at hpre
        have heq : m = n2 := segsPre_append_head dp m n2 _ _ hpre
        subst heq
        rw [(memName_true_iff m (namesOf rest)).mpr
          (dirNames_subset_namesOf m rest hmem2)] at hnod'
        exact absurd hnod'.1 (by simp)

theorem safeT_single (x : Ev) : SafeT [x] := by
  intro l1 e1 l2 e2 q p hsplit hmem hq hp
  cases l1 with
  | nil =>
    simp only [List.nil_append, List.cons.injEq] at hsplit
    rw [← hsplit.2] at hmem
    cases hmem
  | cons y l1' =>
    simp only [List.cons_append, List.cons.injEq] at hsplit
    exact absurd hsplit.2.symm (by simp)

theorem safeT_pdcrPlain (st : Strat) (o : TemplateOptions) (dp : List Str)
    (es : List FsEntry) (hnod : nodupNames (namesOf es) = true)
    (hwf : wfList es = true) : SafeT (pdcrPlain st o dp es).trace := by
  show SafeT (Ev.enumDir dp ::
    ((walkPlain st o dp es).trace ++
      (filesPhase st o dp (walkPlain st o dp es).entries).trace ++
      (renamePhase st o dp
        (filesPhase st o dp (walkPlain st o dp es).entries).entries).trace))
  rw [List.append_assoc]
  apply safeT_composite
  · exact safeT_walkPlainF st o (sizeL es) dp es hnod hwf
  · intro e he
    obtain ⟨n2, r2, hpar, -⟩ := walkPlainF_trace_loc st o (sizeL es) dp es e he
    exact ⟨n2, r2, hpar⟩
  · apply safeT_filesPhase
    rw [show (walkPlain st o dp es).entries = (walkPlainF st o (sizeL es) dp es).entries from rfl,
      walkPlainF_namesOf]
    exact hnod
  · intro e he p hp
    obtain ⟨x, -, hshape⟩ := filesPhase_trace_mem st o dp _ e he
    rcases hshape with rfl | rfl | rfl | ⟨b, rfl, -⟩
    · cases hp
    · exact ⟨x, by simpa [evContentPath] using hp.symm⟩
    · exact ⟨x, by simpa [evContentPath] using hp.symm⟩
    · cases hp
  · intro e he
    obtain ⟨a, b, rfl, -⟩ := renamePhase_trace_mem st o dp _ e he
    rfl

/-- C1: for every invocation of the (exact, non-interactive) tree
transformer over a well-formed subtree, no file content access (read or
write) ever touches the old path of an earlier rename of the same
invocation, or any path below it: content transformation always
precedes the file's own rename, and a directory's descendants are fully
content-processed before the directory itself is renamed. -/
theorem c1_no_content_after_rename (tp : ExactTemplater) (o : TemplateOptions)
    (root : FsEntry) (hwf : wfEntry root = true) :
    ∀ l1 e1 l2 e2 q p,
      (process_directory_model tp o root).trace = l1 ++ e1 :: l2 → e2 ∈ l2 →
      evRenamePath e1 = some q → evContentPath e2 = some p →
      segsPre q p = false := by
  have hsafe : SafeT (process_directory_model tp o root).trace := by
    cases root with
    | file n c =>
      exact safeT_processFileM tp.strat o [] n c
    | dir n cs =>
      have hwf' : nodupNames (namesOf cs) = true ∧ wfList cs = true := by
        simp only [wfEntry, Bool.and_eq_true] at hwf
        exact hwf
      have hpdcr := safeT_pdcrPlain tp.strat o [n] cs hwf'.1 hwf'.2
      simp only [process_directory_model]
      by_cases hpp : o.process_paths = true
      · rw [if_pos hpp]
        cases hc : tp.process_path_component n with
        | none => exact hpdcr
        | some nn =>
          apply safeT_append _ _ hpdcr
          · by_cases hd : o.dry_run = true
            · rw [if_pos hd]
              exact safeT_nil
            · rw [if_neg hd]
              exact safeT_single _
          · intro e1 h1 e2 h2 q p hq hp
            by_cases hd : o.dry_run = true
            · rw [if_pos hd] at h2; cases h2
            · rw [if_neg hd] at h2
              rcases List.mem_cons.mp h2 with rfl | h2'
              · cases hp
              · cases h2'
      · rw [if_neg hpp]
        exact hpdcr
  exact hsafe

/-- C1 witness: a real run over the tree
`r/ \x7b a/ \x7b tok-d/ \x7d, f \x7d` renames `r/a/tok-d` and later reads
`r/f`; the theorem applies and the read path is indeed not under the
renamed path. -/
theorem c1_no_content_after_rename_witness :
    wfEntry (FsEntry.dir (str "r")
      [FsEntry.dir (str "a") [FsEntry.dir (str "tok-d") []],
       FsEntry.file (str "f") (some (str "x"))]) = true
    ∧ segsPre [str "r", str "a", str "tok-d"] [str "r", str "f"] = false := by
  have hwf : wfEntry (FsEntry.dir (str "r")
      [FsEntry.dir (str "a") [FsEntry.dir (str "tok-d") []],
       FsEntry.file (str "f") (some (str "x"))]) = true := by
    simp only [wfEntry, wfList, nodupNames, namesOf, memName, Bool.and_eq_true,
      Bool.not_eq_true', Bool.or_eq_false_iff]
    refine ⟨⟨⟨?_, ?_⟩, ?_⟩, ?_, ?_⟩ <;> decide
  have hs : sizeL [FsEntry.dir (str "a") [FsEntry.dir (str "tok-d") []],
      FsEntry.file (str "f") (some (str "x"))] = 3 := by
    simp [sizeL, sizeE]
  have ht : (process_directory_model (ExactTemplater.new (str "tok") (str "z"))
      ⟨true, true, false⟩
      (FsEntry.dir (str "r")
        [FsEntry.dir (str "a") [FsEntry.dir (str "tok-d") []],
         FsEntry.file (str "f") (some (str "x"))])).trace
      = [Ev.enumDir [str "r"], Ev.enumDir [str "r", str "a"],
         Ev.enumDir [str "r", str "a", str "tok-d"],
         Ev.renameDir [str "r", str "a"] (str "tok-d") (str "z-d"),
         Ev.visitFile [str "r"] (str "f"), Ev.readFile [str "r"] (str "f")] := by
    unfold process_directory_model
    simp only [pdcrPlain, walkPlain, hs]
    rfl
  refine ⟨hwf, ?_⟩
  exact c1_no_content_after_rename (ExactTemplater.new (str "tok") (str "z"))
    ⟨true, true, false⟩
    (FsEntry.dir (str "r")
      [FsEntry.dir (str "a") [FsEntry.dir (str "tok-d") []],
       FsEntry.file (str "f") (some (str "x"))]) hwf
    [Ev.enumDir [str "r"], Ev.enumDir [str "r", str "a"],
     Ev.enumDir [str "r", str "a", str "tok-d"]]
    (Ev.renameDir [str "r", str "a"] (str "tok-d") (str "z-d"))
    [Ev.visitFile [str "r"] (str "f"), Ev.readFile [str "r"] (str "f")]
    (Ev.readFile [str "r"] (str "f"))
    [str "r", str "a", str "tok-d"] [str "r", str "f"]
    (by rw [ht]; rfl) (by decide) rfl rfl

theorem process_path_component_some (tp : ExactTemplater) (a b : Str)
    (h : tp.process_path_component a = some b) :
    occurs tp.token a = true ∧ b = replaceAll tp.token tp.replacement a := by
  unfold ExactTemplater.process_path_component at h
  split at h
  · cases h
    rename_i hocc
    exact ⟨hocc, rfl⟩
  · cases h

theorem walkPlainF_rename_decision (st : Strat) (o : TemplateOptions) :
    ∀ fuel dp es e dq a b,
      e ∈ (walkPlainF st o fuel dp es).trace →
      (e = Ev.renameFile dq a b ∨ e = Ev.renameDir dq a b) →
      st.procComponent a = some b := by
  intro fuel
  induction fuel with
  | zero => intro dp es e dq a b he hr; simp [walkPlainF] at he
  | succ fuel ih =>
    intro dp es e dq a b he hr
    cases es with
    | nil => simp [walkPlainF] at he
    | cons hd rest =>
      cases hd with
      | file m c =>
        simp only [walkPlainF] at he
        exact ih dp rest e dq a b he hr
      | dir m cs =>
        simp only [walkPlainF, List.mem_append, List.mem_cons] at he
        rcases he with (rfl | ((he | he) | he)) | he
        · rcases hr with hr | hr <;> cases hr
        · exact ih (dp ++ [m]) cs e dq a b he hr
        · obtain ⟨x, -, hshape⟩ := filesPhase_trace_mem st o (dp ++ [m]) _ e he
          rcases hshape with rfl | rfl | rfl | ⟨b2, rfl, hc⟩
          · rcases hr with hr | hr <;> cases hr
          · rcases hr with hr | hr <;> cases hr
          · rcases hr with hr | hr <;> cases hr
          · rcases hr with hr | hr
            · cases hr; exact hc
            · cases hr
        · obtain ⟨a2, b2, rfl, hc, -⟩ := renamePhase_trace_mem st o (dp ++ [m]) _ e he
          rcases hr with hr | hr
          · cases hr
          · cases hr; exact hc
        · exact ih dp rest e dq a b he hr

/-- C2 counterexample: with token `aa/bb` (a multi-segment token) over
the tree `s/aa/bb/`, the whole-path match succeeds on the path
`s/aa/bb`, yet the transformer renames nothing and leaves the tree
unchanged: no whole-path attempt and no parent-directory creation ever
happens. -/
theorem c2_counterexample :
    (process_directory_model (ExactTemplater.new (str "aa/bb") (str "cc"))
        ⟨true, true, false⟩
        (FsEntry.dir (str "s") [FsEntry.dir (str "aa") [FsEntry.dir (str "bb") []]])).root
      = FsEntry.dir (str "s") [FsEntry.dir (str "aa") [FsEntry.dir (str "bb") []]]
    ∧ (process_directory_model (ExactTemplater.new (str "aa/bb") (str "cc"))
        ⟨true, true, false⟩
        (FsEntry.dir (str "s") [FsEntry.dir (str "aa") [FsEntry.dir (str "bb") []]])).res.paths_renamed
      = 0
    ∧ (ExactTemplater.new (str "aa/bb") (str "cc")).process_full_path
        [str "s", str "aa", str "bb"] = some (str "s/cc") := by
  have hs : sizeL [FsEntry.dir (str "aa") [FsEntry.dir (str "bb") []]] = 2 := by
    simp [sizeL, sizeE]
  refine ⟨?_, ?_, rfl⟩
  · unfold process_directory_model
    simp only [pdcrPlain, walkPlain, hs]
    rfl
  · unfold process_directory_model
    simp only [pdcrPlain, walkPlain, hs]
    rfl

/-- C2 (amended): the tree transformer never attempts a whole-path
match and never creates parent directories: every rename it performs
(file, child directory, or target directory) is a single-segment rename
produced by `process_path_component` -- the new final segment is the
literal replacement of the token within the old final segment, and the
parent path is unchanged (`process_full_path` exists on the strategy
but is not invoked by the traversal). -/
theorem c2_component_only_renames (tp : ExactTemplater) (o : TemplateOptions)
    (root : FsEntry) :
    ∀ e ∈ (process_directory_model tp o root).trace, ∀ dq a b,
      (e = Ev.renameFile dq a b ∨ e = Ev.renameDir dq a b) →
      occurs tp.token a = true ∧ b = replaceAll tp.token tp.replacement a := by
  intro e he dq a b hr
  have hdec : tp.strat.procComponent a = some b → _ := process_path_component_some tp a b
  apply hdec
  cases root with
  | file n c =>
    rcases processFileM_trace_mem tp.strat o [] n c e he with rfl | rfl | rfl | ⟨b2, rfl, hc, -⟩
    · rcases hr with hr | hr <;> cases hr
    · rcases hr with hr | hr <;> cases hr
    · rcases hr with hr | hr <;> cases hr
    · rcases hr with hr | hr
      · cases hr; exact hc
      · cases hr
  | dir n cs =>
    simp only [process_directory_model] at he
    have hpdcr : ∀ e ∈ (pdcrPlain tp.strat o [n] cs).trace,
        (e = Ev.renameFile dq a b ∨ e = Ev.renameDir dq a b) →
        tp.strat.procComponent a = some b := by
      intro e' he' hr'
      simp only [pdcrPlain, List.mem_cons, List.mem_append] at he'
      rcases he' with rfl | (he' | he') | he'
      · rcases hr' with hr' | hr' <;> cases hr'
      · exact walkPlainF_rename_decision tp.strat o _ _ _ e' dq a b he' hr'
      · obtain ⟨x, -, hshape⟩ := filesPhase_trace_mem tp.strat o [n] _ e' he'
        rcases hshape with rfl | rfl | rfl | ⟨b2, rfl, hc⟩
        · rcases hr' with hr' | hr' <;> cases hr'
        · rcases hr' with hr' | hr' <;> cases hr'
        · rcases hr' with hr' | hr' <;> cases hr'
        · rcases hr' with hr' | hr'
          · cases hr'; exact hc
          · cases hr'
      · obtain ⟨a2, b2, rfl, hc, -⟩ := renamePhase_trace_mem tp.strat o [n] _ e' he'
        rcases hr' with hr' | hr'
        · cases hr'
        · cases hr'; exact hc
    by_cases hpp : o.process_paths = true
    · rw [if_pos hpp] at he
      cases hc : tp.process_path_component n with
      | none =>
        rw [hc] at he
        exact hpdcr e he hr
      | some nn =>
        rw [hc] at he
        simp only [List.mem_append] at he
        rcases he with he | he
        · exact hpdcr e he hr
        · by_cases hd : o.dry_run = true
          · rw [if_pos hd] at he; cases he
          · rw [if_neg hd] at he
            rcases List.mem_cons.mp he with rfl | he'
            · rcases hr with hr | hr
              · cases hr
              · cases hr
                exact hc
            · cases he'
    · rw [if_neg hpp] at he
      exact hpdcr e he hr

/-- C2 witness: in a concrete run the child directory `tok-d` is
renamed, and its new name is exactly the component replacement of the
token within the old name. -/
theorem c2_component_only_renames_witness :
    occurs (str "tok") (str "tok-d") = true
    ∧ str "z-d" = replaceAll (str "tok") (str "z") (str "tok-d") := by
  have hs : sizeL [FsEntry.dir (str "tok-d") []] = 1 := by
    simp [sizeL, sizeE]
  have ht : (process_directory_model (ExactTemplater.new (str "tok") (str "z"))
      ⟨true, true, false⟩
      (FsEntry.dir (str "r") [FsEntry.dir (str "tok-d") []])).trace
      = [Ev.enumDir [str "r"], Ev.enumDir [str "r", str "tok-d"],
         Ev.renameDir [str "r"] (str "tok-d") (str "z-d")] := by
    unfold process_directory_model
    simp only [pdcrPlain, walkPlain, hs]
    rfl
  exact c2_component_only_renames (ExactTemplater.new (str "tok") (str "z"))
    ⟨true, true, false⟩ (FsEntry.dir (str "r") [FsEntry.dir (str "tok-d") []])
    (Ev.renameDir [str "r"] (str "tok-d") (str "z-d"))
    (by rw [ht]; decide)
    [str "r"] (str "tok-d") (str "z-d") (Or.inr rfl)

/-- C3 counterexample: over `r/ \x7b tok-a/, f \x7d` the plain engine
visits file `f` of `r` and only afterwards renames the child directory
`tok-a`, so the claimed rename-children-then-files order is violated at
the directory `r`. -/
theorem c3_counterexample :
    renamesBeforeFilesAt [str "r"]
      (process_directory_model (ExactTemplater.new (str "tok") (str "x"))
        ⟨true, true, false⟩
        (FsEntry.dir (str "r")
          [FsEntry.dir (str "tok-a") [], FsEntry.file (str "f") none])).trace
      = false := by
  have hs : sizeL [FsEntry.dir (str "tok-a") [], FsEntry.file (str "f") none] = 2 := by
    simp [sizeL, sizeE]
  unfold process_directory_model
  simp only [pdcrPlain, walkPlain, hs]
  rfl

theorem collectRen_append (dp : List Str) (A B : List Ev) :
    collectRen dp (A ++ B) = collectRen dp A ++ collectRen dp B := by
  induction A with
  | nil => rfl
  | cons e A ih =>
    cases e with
    | renameDir dp' a b =>
      show (if dp' = dp then a :: collectRen dp (A ++ B)
            else collectRen dp (A ++ B))
          = (if dp' = dp then a :: collectRen dp A else collectRen dp A)
            ++ collectRen dp B
      by_cases hdp : dp' = dp
      · rw [if_pos hdp, if_pos hdp, ih, List.cons_append]
      · rw [if_neg hdp, if_neg hdp, ih]
    | enumDir d => exact ih
    | visitFile d f => exact ih
    | readFile d f => exact ih
    | writeFile d f => exact ih
    | renameFile d a b => exact ih

theorem collectRen_nil_of_no_renameDir (dp : List Str) (A : List Ev)
    (h : ∀ e ∈ A, ∀ a b, e ≠ Ev.renameDir dp a b) :
    collectRen dp A = [] := by
  induction A with
  | nil => rfl
  | cons e A ih =>
    have hrest := ih (fun e' he' => h e' (List.mem_cons_of_mem _ he'))
    cases e <;> simp only [collectRen, hrest]
    rename_i dp' a b
    by_cases hdp : dp' = dp
    · subst hdp
      exact absurd rfl (h _ (List.mem_cons_self _ _) a b)
    · simp [hdp]

theorem collectRen_renameEvents (st : Strat) (o : TemplateOptions) (dp : List Str)
    (ns : List Str) (hd : o.dry_run = false) :
    collectRen dp (renameEvents st o dp ns)
      = ns.filter (fun n => (st.procComponent n).isSome) := by
  induction ns with
  | nil => rfl
  | cons n ns ih =>
    have hsplit : renameEvents st o dp (n :: ns)
        = (match st.procComponent n with
            | some nn => if o.dry_run then none else some (Ev.renameDir dp n nn)
            | none => none).toList ++ renameEvents st o dp ns := by
      simp [renameEvents, List.filterMap_cons]
      cases st.procComponent n with
      | none => rfl
      | some nn => cases o.dry_run <;> rfl
    rw [hsplit, collectRen_append, ih, List.filter_cons]
    cases hc : st.procComponent n with
    | none => simp [hc, collectRen]
    | some nn =>
      simp only [hc, hd, Bool.false_eq_true, if_false, Option.toList_some,
        Option.isSome_some, if_true]
      show (if dp = dp then n :: collectRen dp [] else collectRen dp [])
            ++ _ = _
      rw [if_pos rfl]
      rfl

/-- C3 (amended): in the plain (exact-token) engine, the per-directory
order is enumerate, recurse into child directories (contents only),
process the files of this directory, and only THEN rename child
directories bottom-up (reverse enumeration order); the top-level target
directory itself is renamed last.  The claimed order (child renames
before files) is refuted by `c3_counterexample`. -/
theorem c3_plain_visit_order (tp : ExactTemplater) (o : TemplateOptions)
    (n : Str) (cs : List FsEntry)
    (hpp : o.process_paths = true) (hdry : o.dry_run = false) :
    ∃ tRec tFiles tRen tTop,
      (process_directory_model tp o (FsEntry.dir n cs)).trace
        = Ev.enumDir [n] :: (tRec ++ tFiles ++ tRen) ++ tTop
      ∧ (∀ e ∈ tRec, ∃ m r, evParent e = [n] ++ m :: r ∧ m ∈ dirNames cs)
      ∧ (∀ e ∈ tFiles, ∃ f, f ∈ namesOf cs ∧
          (e = Ev.visitFile [n] f ∨ e = Ev.readFile [n] f ∨ e = Ev.writeFile [n] f
            ∨ ∃ b, e = Ev.renameFile [n] f b ∧ tp.strat.procComponent f = some b))
      ∧ (∀ e ∈ tRen, ∃ a b, e = Ev.renameDir [n] a b
            ∧ tp.strat.procComponent a = some b)
      ∧ collectRen [n] tRen
          = ((dirNames cs).filter
              (fun m => (tp.strat.procComponent m).isSome)).reverse
      ∧ (match tp.process_path_component n with
          | some nn => tTop = [Ev.renameDir [] n nn]
          | none => tTop = []) := by
  refine ⟨(walkPlain tp.strat o [n] cs).trace,
    (filesPhase tp.strat o [n] (walkPlain tp.strat o [n] cs).entries).trace,
    (renamePhase tp.strat o [n]
      (filesPhase tp.strat o [n] (walkPlain tp.strat o [n] cs).entries).entries).trace,
    (match tp.process_path_component n with
      | some nn => [Ev.renameDir [] n nn]
      | none => []), ?_, ?_, ?_, ?_, ?_, ?_⟩
  · show (process_directory_model tp o (FsEntry.dir n cs)).trace = _
    unfold process_directory_model
    simp only [hpp, if_true]
    cases hm : tp.process_path_component n with
    | some nn =>
      simp only [hdry, Bool.false_eq_true, if_false, pdcrPlain]
    | none =>
      simp only [pdcrPlain]
      rw [List.append_nil]
  · intro e he
    obtain ⟨m, r, hpar, hm⟩ := walkPlainF_trace_loc tp.strat o _ _ _ e he
    exact ⟨m, r, hpar, hm⟩
  · intro e he
    obtain ⟨f, hf, hcase⟩ := filesPhase_trace_mem tp.strat o [n] _ e he
    rw [walkPlain, walkPlainF_namesOf] at hf
    exact ⟨f, hf, hcase⟩
  · intro e he
    obtain ⟨a, b, rfl, hc, _, _⟩ := renamePhase_trace_mem tp.strat o [n] _ e he
    exact ⟨a, b, rfl, hc⟩
  · have h2 : dirNames (filesPhase tp.strat o [n]
        (walkPlain tp.strat o [n] cs).entries).entries = dirNames cs := by
      rw [filesPhase_dirNames, walkPlain, walkPlainF_dirNames]
    unfold renamePhase
    simp only [hpp, if_true, h2]
    rw [collectRen_renameEvents tp.strat o [n] _ hdry, List.filter_reverse]
  · cases hm : tp.process_path_component n <;> rfl

theorem c3_plain_visit_order_witness :
    ∃ tRec tFiles tRen tTop,
      (process_directory_model (ExactTemplater.new (str "tok") (str "x"))
          ⟨true, true, false⟩
          (FsEntry.dir (str "r")
            [FsEntry.dir (str "tok-a") [], FsEntry.file (str "f") none])).trace
        = Ev.enumDir [str "r"] :: (tRec ++ tFiles ++ tRen) ++ tTop
      ∧ (∀ e ∈ tRec, ∃ m r, evParent e = [str "r"] ++ m :: r
          ∧ m ∈ dirNames [FsEntry.dir (str "tok-a") [], FsEntry.file (str "f") none])
      ∧ (∀ e ∈ tFiles, ∃ f,
          f ∈ namesOf [FsEntry.dir (str "tok-a") [], FsEntry.file (str "f") none] ∧
          (e = Ev.visitFile [str "r"] f ∨ e = Ev.readFile [str "r"] f
            ∨ e = Ev.writeFile [str "r"] f
            ∨ ∃ b, e = Ev.renameFile [str "r"] f b
              ∧ (ExactTemplater.new (str "tok") (str "x")).strat.procComponent f
                  = some b))
      ∧ (∀ e ∈ tRen, ∃ a b, e = Ev.renameDir [str "r"] a b
          ∧ (ExactTemplater.new (str "tok") (str "x")).strat.procComponent a
              = some b)
      ∧ collectRen [str "r"] tRen
          = ((dirNames [FsEntry.dir (str "tok-a") [], FsEntry.file (str "f") none]).filter
              (fun m =>
                ((ExactTemplater.new (str "tok") (str "x")).strat.procComponent m).isSome)).reverse
      ∧ (match (ExactTemplater.new (str "tok") (str "x")).process_path_component (str "r") with
          | some nn => tTop = [Ev.renameDir [] (str "r") nn]
          | none => tTop = []) :=
  c3_plain_visit_order (ExactTemplater.new (str "tok") (str "x"))
    ⟨true, true, false⟩ (str "r")
    [FsEntry.dir (str "tok-a") [], FsEntry.file (str "f") none] rfl rfl

theorem fileRenameStep_count_dry (st : Strat) (pp pc d1 d2 : Bool)
    (dp : List Str) (n : Str) :
    (fileRenameStep st ⟨pp, pc, d1⟩ dp n).2.1
      = (fileRenameStep st ⟨pp, pc, d2⟩ dp n).2.1 := by
  unfold fileRenameStep
  cases pp
  · rfl
  · cases hc : st.procComponent n <;> rfl

theorem fileContentStep_count_dry (st : Strat) (pp pc d1 d2 : Bool)
    (dp : List Str) (n : Str) (c : Option Str) :
    (fileContentStep st ⟨pp, pc, d1⟩ dp n c).2.1
      = (fileContentStep st ⟨pp, pc, d2⟩ dp n c).2.1 := by
  unfold fileContentStep
  cases pc
  · rfl
  · cases c with
    | none => rfl
    | some body => cases hb : st.procContent body <;> simp [hb]

theorem processFileM_res_dry (st : Strat) (pp pc d1 d2 : Bool) (dp : List Str)
    (n : Str) (c : Option Str) :
    (processFileM st ⟨pp, pc, d1⟩ dp n c).res
      = (processFileM st ⟨pp, pc, d2⟩ dp n c).res := by
  show (⟨1, (fileRenameStep st ⟨pp, pc, d1⟩ dp n).2.1,
          (fileContentStep st ⟨pp, pc, d1⟩ dp n c).2.1⟩ : TRes)
      = ⟨1, (fileRenameStep st ⟨pp, pc, d2⟩ dp n).2.1,
          (fileContentStep st ⟨pp, pc, d2⟩ dp n c).2.1⟩
  rw [fileRenameStep_count_dry st pp pc d1 d2,
    fileContentStep_count_dry st pp pc d1 d2]

theorem filesPhase_res_topView (st : Strat) (pp pc d1 d2 : Bool) (dp : List Str) :
    ∀ es1 es2, es1.map topView = es2.map topView →
      (filesPhase st ⟨pp, pc, d1⟩ dp es1).res
        = (filesPhase st ⟨pp, pc, d2⟩ dp es2).res := by
  intro es1
  induction es1 with
  | nil =>
    intro es2 h
    cases es2 with
    | nil => rfl
    | cons b m => simp at h
  | cons a l ih =>
    intro es2 h
    cases es2 with
    | nil => simp at h
    | cons b m =>
      simp only [List.map_cons, List.cons.injEq] at h
      obtain ⟨hab, hlm⟩ := h
      cases a with
      | dir n cs =>
        cases b with
        | dir n' cs' =>
          show (filesPhase st ⟨pp, pc, d1⟩ dp l).res
              = (filesPhase st ⟨pp, pc, d2⟩ dp m).res
          exact ih m hlm
        | file n' c' => simp [topView] at hab
      | file n c =>
        cases b with
        | dir n' cs' => simp [topView] at hab
        | file n' c' =>
          obtain ⟨hn, hc⟩ : n = n' ∧ c = c' := by simpa [topView] using hab
          subst hn; subst hc
          show TRes.add (processFileM st ⟨pp, pc, d1⟩ dp n c).res
              (filesPhase st ⟨pp, pc, d1⟩ dp l).res
            = TRes.add (processFileM st ⟨pp, pc, d2⟩ dp n c).res
              (filesPhase st ⟨pp, pc, d2⟩ dp m).res
          rw [processFileM_res_dry st pp pc d1 d2 dp n c, ih m hlm]

theorem renamePhase_res (st : Strat) (o : TemplateOptions) (dp : List Str)
    (es : List FsEntry) :
    (renamePhase st o dp es).res
      = if o.process_paths then ⟨0, renameCount st (dirNames es), 0⟩
        else TRes.zero := by
  unfold renamePhase
  split <;> rfl

theorem walkPlainF_topView (st : Strat) (o : TemplateOptions) :
    ∀ fuel dp es,
      (walkPlainF st o fuel dp es).entries.map topView = es.map topView := by
  intro fuel
  induction fuel with
  | zero => intro dp es; rfl
  | succ fuel ih =>
    intro dp es
    cases es with
    | nil => rfl
    | cons a rest =>
      cases a with
      | file n c =>
        show topView (FsEntry.file n c)
            :: (walkPlainF st o fuel dp rest).entries.map topView = _
        rw [ih dp rest]
        rfl
      | dir n cs =>
        show topView (FsEntry.dir n _)
            :: (walkPlainF st o fuel dp rest).entries.map topView = _
        rw [ih dp rest]
        rfl

theorem walkPlainF_res_dry (st : Strat) (pp pc d1 d2 : Bool) :
    ∀ fuel dp es,
      (walkPlainF st ⟨pp, pc, d1⟩ fuel dp es).res
        = (walkPlainF st ⟨pp, pc, d2⟩ fuel dp es).res := by
  intro fuel
  induction fuel with
  | zero => intro dp es; rfl
  | succ fuel ih =>
    intro dp es
    cases es with
    | nil => rfl
    | cons a rest =>
      cases a with
      | file n c =>
        show (walkPlainF st ⟨pp, pc, d1⟩ fuel dp rest).res
            = (walkPlainF st ⟨pp, pc, d2⟩ fuel dp rest).res
        exact ih dp rest
      | dir n cs =>
        show TRes.add (TRes.add (TRes.add
            (walkPlainF st ⟨pp, pc, d1⟩ fuel (dp ++ [n]) cs).res
            (filesPhase st ⟨pp, pc, d1⟩ (dp ++ [n])
              (walkPlainF st ⟨pp, pc, d1⟩ fuel (dp ++ [n]) cs).entries).res)
            (renamePhase st ⟨pp, pc, d1⟩ (dp ++ [n])
              (filesPhase st ⟨pp, pc, d1⟩ (dp ++ [n])
                (walkPlainF st ⟨pp, pc, d1⟩ fuel (dp ++ [n]) cs).entries).entries).res)
            (walkPlainF st ⟨pp, pc, d1⟩ fuel dp rest).res
          = TRes.add (TRes.add (TRes.add
            (walkPlainF st ⟨pp, pc, d2⟩ fuel (dp ++ [n]) cs).res
            (filesPhase st ⟨pp, pc, d2⟩ (dp ++ [n])
              (walkPlainF st ⟨pp, pc, d2⟩ fuel (dp ++ [n]) cs).entries).res)
            (renamePhase st ⟨pp, pc, d2⟩ (dp ++ [n])
              (filesPhase st ⟨pp, pc, d2⟩ (dp ++ [n])
                (walkPlainF st ⟨pp, pc, d2⟩ fuel (dp ++ [n]) cs).entries).entries).res)
            (walkPlainF st ⟨pp, pc, d2⟩ fuel dp rest).res
        have h1 := ih (dp ++ [n]) cs
        have hv : (walkPlainF st ⟨pp, pc, d1⟩ fuel (dp ++ [n]) cs).entries.map topView
            = (walkPlainF st ⟨pp, pc, d2⟩ fuel (dp ++ [n]) cs).entries.map topView := by
          rw [walkPlainF_topView, walkPlainF_topView]
        have h2 := filesPhase_res_topView st pp pc d1 d2 (dp ++ [n]) _ _ hv
        have h3 : (renamePhase st ⟨pp, pc, d1⟩ (dp ++ [n])
              (filesPhase st ⟨pp, pc, d1⟩ (dp ++ [n])
                (walkPlainF st ⟨pp, pc, d1⟩ fuel (dp ++ [n]) cs).entries).entries).res
            = (renamePhase st ⟨pp, pc, d2⟩ (dp ++ [n])
              (filesPhase st ⟨pp, pc, d2⟩ (dp ++ [n])
                (walkPlainF st ⟨pp, pc, d2⟩ fuel (dp ++ [n]) cs).entries).entries).res := by
          rw [renamePhase_res, renamePhase_res, filesPhase_dirNames,
            filesPhase_dirNames, walkPlainF_dirNames, walkPlainF_dirNames]
        rw [h1, h2, h3, ih dp rest]

/-- In the in-place rename idealization (`fileRenameStep`,
`renameDirEntry`: no rename ever lands on an existing sibling), the
three result counters of a dry run equal those of a real run.  The
store-based model shows this fails for the program itself once a
file rename clobbers a not-yet-read sibling, see
`c9_rename_clobber_divergence`. -/
theorem inPlace_dry_run_counters (tp : ExactTemplater) (pp pc : Bool)
    (root : FsEntry) :
    (process_directory_model tp ⟨pp, pc, true⟩ root).res
      = (process_directory_model tp ⟨pp, pc, false⟩ root).res := by
  cases root with
  | file n c =>
    show (processFileM tp.strat ⟨pp, pc, true⟩ [] n c).res
        = (processFileM tp.strat ⟨pp, pc, false⟩ [] n c).res
    exact processFileM_res_dry tp.strat pp pc true false [] n c
  | dir n cs =>
    have hw : (pdcrPlain tp.strat ⟨pp, pc, true⟩ [n] cs).res
        = (pdcrPlain tp.strat ⟨pp, pc, false⟩ [n] cs).res := by
      show TRes.add (TRes.add
          (walkPlain tp.strat ⟨pp, pc, true⟩ [n] cs).res
          (filesPhase tp.strat ⟨pp, pc, true⟩ [n]
            (walkPlain tp.strat ⟨pp, pc, true⟩ [n] cs).entries).res)
          (renamePhase tp.strat ⟨pp, pc, true⟩ [n]
            (filesPhase tp.strat ⟨pp, pc, true⟩ [n]
              (walkPlain tp.strat ⟨pp, pc, true⟩ [n] cs).entries).entries).res
        = TRes.add (TRes.add
          (walkPlain tp.strat ⟨pp, pc, false⟩ [n] cs).res
          (filesPhase tp.strat ⟨pp, pc, false⟩ [n]
            (walkPlain tp.strat ⟨pp, pc, false⟩ [n] cs).entries).res)
          (renamePhase tp.strat ⟨pp, pc, false⟩ [n]
            (filesPhase tp.strat ⟨pp, pc, false⟩ [n]
              (walkPlain tp.strat ⟨pp, pc, false⟩ [n] cs).entries).entries).res
      have h1 := walkPlainF_res_dry tp.strat pp pc true false (sizeL cs) [n] cs
      have hv : (walkPlain tp.strat ⟨pp, pc, true⟩ [n] cs).entries.map topView
          = (walkPlain tp.strat ⟨pp, pc, false⟩ [n] cs).entries.map topView := by
        unfold walkPlain
        rw [walkPlainF_topView, walkPlainF_topView]
      have h2 := filesPhase_res_topView tp.strat pp pc true false [n] _ _ hv
      have h3 : (renamePhase tp.strat ⟨pp, pc, true⟩ [n]
            (filesPhase tp.strat ⟨pp, pc, true⟩ [n]
              (walkPlain tp.strat ⟨pp, pc, true⟩ [n] cs).entries).entries).res
          = (renamePhase tp.strat ⟨pp, pc, false⟩ [n]
            (filesPhase tp.strat ⟨pp, pc, false⟩ [n]
              (walkPlain tp.strat ⟨pp, pc, false⟩ [n] cs).entries).entries).res := by
        unfold walkPlain
        rw [renamePhase_res, renamePhase_res, filesPhase_dirNames,
          filesPhase_dirNames, walkPlainF_dirNames, walkPlainF_dirNames]
      unfold walkPlain at h2 h3 ⊢
      rw [h1, h2, h3]
    have hres : ∀ d : Bool,
        (process_directory_model tp ⟨pp, pc, d⟩ (FsEntry.dir n cs)).res
          = (if pp then
              match tp.process_path_component n with
              | some _ =>
                TRes.add (pdcrPlain tp.strat ⟨pp, pc, d⟩ [n] cs).res ⟨0, 1, 0⟩
              | none => (pdcrPlain tp.strat ⟨pp, pc, d⟩ [n] cs).res
             else (pdcrPlain tp.strat ⟨pp, pc, d⟩ [n] cs).res) := by
      intro d
      simp only [process_directory_model]
      cases pp <;> cases tp.process_path_component n <;> rfl
    rw [hres true, hres false]
    cases pp with
    | false => exact hw
    | true =>
      cases tp.process_path_component n with
      | some nn =>
        show TRes.add (pdcrPlain tp.strat ⟨true, pc, true⟩ [n] cs).res ⟨0, 1, 0⟩
            = TRes.add (pdcrPlain tp.strat ⟨true, pc, false⟩ [n] cs).res ⟨0, 1, 0⟩
        rw [hw]
      | none => exact hw

/-- C6 (amended): Case-Shape strategy construction fails naming the
token exactly when the cleaned token has no hyphen, no underscore and
no uppercase letter ANYWHERE (the code accepts a leading uppercase
letter as compound, where the claim demanded an internal one, see
`c6_counterexample`); with a compound token it fails naming the
replacement exactly when the cleaned replacement is not compound; it
succeeds exactly when both are compound; and on failure the whole
shapes run returns the validation error before any filesystem access
(its result carries no trace). -/
theorem c6_shape_validation (token repl : Str) :
    (CaseShapeTemplater.new token repl = Except.error (str "token")
        ↔ hasCompound token = false)
    ∧ (hasCompound token = true →
        (CaseShapeTemplater.new token repl = Except.error (str "replacement")
          ↔ hasCompound repl = false))
    ∧ (isOkE (CaseShapeTemplater.new token repl) = true
        ↔ (hasCompound token = true ∧ hasCompound repl = true))
    ∧ (∀ e o root,
        CaseShapeTemplater.new token repl = Except.error e →
        process_directory_shapes_model token repl o root = Except.error e) := by
  have hne : str "replacement" ≠ str "token" := by decide
  refine ⟨?_, ?_, ?_, ?_⟩
  · unfold CaseShapeTemplater.new
    by_cases ht : hasCompound token
    · by_cases hr : hasCompound repl <;> simp [ht, hr, hne]
    · simp [Bool.not_eq_true] at ht
      simp [ht]
  · intro ht
    unfold CaseShapeTemplater.new
    by_cases hr : hasCompound repl <;> simp [ht, hr]
  · unfold CaseShapeTemplater.new
    by_cases ht : hasCompound token
    · by_cases hr : hasCompound repl <;> simp [ht, hr, isOkE]
    · simp [Bool.not_eq_true] at ht
      simp [ht, isOkE]
  · intro e o root h
    simp only [process_directory_shapes_model, h]

theorem c6_shape_validation_witness :
    hasCompound (str "a-b") = true
    ∧ CaseShapeTemplater.new (str "a-b") (str "xy")
        = Except.error (str "replacement")
    ∧ CaseShapeTemplater.new (str "foo") (str "x_y")
        = Except.error (str "token")
    ∧ process_directory_shapes_model (str "foo") (str "x_y")
        ⟨true, true, false⟩ (FsEntry.dir (str "r") [])
        = Except.error (str "token") :=
  ⟨by decide,
   ((c6_shape_validation (str "a-b") (str "xy")).2.1 (by decide)).mpr (by decide),
   ((c6_shape_validation (str "foo") (str "x_y")).1).mpr (by decide),
   (c6_shape_validation (str "foo") (str "x_y")).2.2.2 (str "token")
     ⟨true, true, false⟩ (FsEntry.dir (str "r") []) rfl⟩

/-- C9 (the code, evaluated at the failing input): over a directory
holding files `tok` (content "nothing") and `z` (content "tok here"),
token "tok" -> replacement "z", the real run first renames `tok` onto
`z` -- `fs::rename` atomically replaces the existing file, destroying
its content before it is read -- and then reads the clobbered `z`, so
it counts no content change; the dry run reads the original `z` and
counts one.  The counters differ (⟨2, 1, 0⟩ against ⟨2, 1, 1⟩), so
dry-run output is not numerically representative of a real run. -/
theorem c9_rename_clobber_divergence :
    filesLoopFs (ExactTemplater.new (str "tok") (str "z")).strat
        ⟨true, true, false⟩ [str "tok", str "z"]
        [(str "tok", some (str "nothing")), (str "z", some (str "tok here"))]
      = Except.ok ([(str "z", some (str "nothing"))], ⟨2, 1, 0⟩)
    ∧ filesLoopFs (ExactTemplater.new (str "tok") (str "z")).strat
        ⟨true, true, true⟩ [str "tok", str "z"]
        [(str "tok", some (str "nothing")), (str "z", some (str "tok here"))]
      = Except.ok ([(str "tok", some (str "nothing")),
          (str "z", some (str "tok here"))], ⟨2, 1, 1⟩)
    ∧ (⟨2, 1, 0⟩ : TRes) ≠ ⟨2, 1, 1⟩ :=
  ⟨rfl, rfl, by decide⟩
